import Mathlib

/-!
Shallow embedding of `src/NUFFT/FGG_Convolution3D_type2.c`, the type-2
Gaussian-gridding convolution loop of Greengard & Lee's NUFFT.

The C code works on `double`s; the embedding idealises IEEE doubles as real
numbers (`ℝ`) and the C constant `PI` as the real `π`.  C arrays accessed
through raw pointers are modelled as total functions `ℤ → ℝ`; machine `int`
index arithmetic is modelled in `ℤ` (no overflow occurs in the ranges the
code touches).  The mutable scratch buffers `E_2x`, `E_2y`, `E_2z` that the
code reuses across knots are threaded explicitly through the per-knot loop
as a `Scratch` state, and the sequential `+=` accumulations of the triple
nested loop are modelled as left folds in source order.
-/

noncomputable section

/-- A C `double*` array, idealised as a total function from `ℤ` indices. -/
abbrev Arr : Type := ℤ → ℝ

/-- The scalar parameters unpacked from the `Scales` input vector:
truncation half-width `M_sp`, per-axis spreading widths `taux, tauy, tauz`,
and per-axis grid extents `M_rx, M_ry, M_rz` (the code reads them as
doubles but uses them as integers). -/
structure Params where
  M_sp : ℕ
  taux : ℝ
  tauy : ℝ
  tauz : ℝ
  M_rx : ℕ
  M_ry : ℕ
  M_rz : ℕ

/-- The scratch buffers `E_2x`, `E_2y`, `E_2z` (allocated once, reused
across knots). -/
structure Scratch where
  ex : Arr
  ey : Arr
  ez : Arr

/-- `m1 = floor(M_rx*knotx/(2*PI))`: nearest lattice index strictly below
the knot's angular position. -/
def floorIdx (N : ℕ) (knot : ℝ) : ℤ := ⌊(N : ℝ) * knot / (2 * Real.pi)⌋

/-- `x = knotx - m1*PI/M_rxd2` with `M_rxd2 = M_rx/2`: the sub-cell offset
from the chosen lattice point to the knot. -/
def suboff (N : ℕ) (knot : ℝ) : ℝ :=
  knot - (floorIdx N knot : ℝ) * (Real.pi / ((N : ℝ) / 2))

/-- `E_1x = exp(-x*x/(4*taux))`: the Gaussian central factor. -/
def E_1 (N : ℕ) (tau knot : ℝ) : ℝ :=
  Real.exp (-(suboff N knot * suboff N knot) / (4 * tau))

/-- `E_2xdummy = exp(x*PI/(M_rx*taux))`: the per-axis geometric ratio whose
powers reproduce the shifted Gaussian weights. -/
def E_2dummy (N : ℕ) (tau knot : ℝ) : ℝ :=
  Real.exp (suboff N knot * Real.pi / ((N : ℝ) * tau))

/-- The offset values `l = 1-M_sp, ..., M_sp` traversed by each of the
three accumulation loops, in source order. -/
def offs (M_sp : ℕ) : List ℤ :=
  (List.range (2 * M_sp)).map (fun j : ℕ => 1 - (M_sp : ℤ) + j)

/-- The loop `for(j=M_sp;j<TwoM_sp;j++) E_2x[j] = E_2xdummy*E_2x[j-1];`
(forward recurrence), as a fold of array updates in source order. -/
def fwdPass (rho : ℝ) (M_sp : ℕ) (b : Arr) : Arr :=
  ((List.range M_sp).map (fun j : ℕ => (M_sp : ℤ) + j)).foldl
    (fun b j => Function.update b j (rho * b (j - 1))) b

/-- The loop `for(j=M_sp-2;j>=0;j--) E_2x[j] = E_2x[j+1]*E_2xdummy_inv;`
(backward recurrence), as a fold of array updates in source order. -/
def bwdPass (rhoinv : ℝ) (M_sp : ℕ) (b : Arr) : Arr :=
  (((List.range (M_sp - 1)).reverse).map (fun j : ℕ => (j : ℤ))).foldl
    (fun b j => Function.update b j (b (j + 1) * rhoinv)) b

/-- One knot's rewrite of a scratch buffer: the forward recurrence with
ratio `rho`, then the backward recurrence with `E_2xdummy_inv = 1/rho`. -/
def knotPass (rho : ℝ) (M_sp : ℕ) (b : Arr) : Arr :=
  bwdPass (1 / rho) M_sp (fwdPass rho M_sp b)

/-- The boundary wrap of the source:
`lz=(m3+l3+M_rzd2)>=0; rz=(m3+l3)<M_rzd2; zind=m3+l3+(rz-lz)*M_rz+M_rzd2`.
The code computes `M_rzd2 = M_rz/2` in double arithmetic; the grid extents
are assumed even (`/*...assume N is even*/`), for which the integer
division below is exact and the comparisons agree with the C ones. -/
def wrapIdx (N : ℕ) (m l : ℤ) : ℤ :=
  let half : ℤ := (N : ℤ) / 2
  let lb : ℤ := if 0 ≤ m + l + half then 1 else 0
  let rb : ℤ := if m + l < half then 1 else 0
  m + l + (rb - lb) * (N : ℤ) + half

/-- `ind = xind + M_rx*yind + N2*zind` with `N2 = M_rx*M_ry`. -/
def linIdx (Nx Ny : ℕ) (x y z : ℤ) : ℤ :=
  x + (Nx : ℤ) * y + ((Nx : ℤ) * (Ny : ℤ)) * z

/-- The triple nested accumulation loop for one knot, in source order
(`l3` outermost over z, then `l2` over y, then `l1` over x), accumulating
the real and imaginary sums simultaneously starting from `(0, 0)`:
`outArrayR[i] += V1r*E_23x*ftaur[ind]; outArrayI[i] += V1r*E_23x*ftaui[ind];`. -/
def accumKnot (M_sp Nx Ny Nz : ℕ) (m1 m2 m3 : ℤ) (E_1xyz : ℝ)
    (ex ey ez E_3x E_3y E_3z gr gi : Arr) : ℝ × ℝ :=
  (offs M_sp).foldl (fun acc2 l3 =>
    let E_23z := ez ((M_sp : ℤ) + l3 - 1) * E_3z ((M_sp : ℤ) + l3 - 1)
    let V2r := E_1xyz * E_23z
    let zind := wrapIdx Nz m3 l3
    (offs M_sp).foldl (fun acc1 l2 =>
      let E_23y := ey ((M_sp : ℤ) + l2 - 1) * E_3y ((M_sp : ℤ) + l2 - 1)
      let V1r := V2r * E_23y
      let yind := wrapIdx Ny m2 l2
      (offs M_sp).foldl (fun acc0 l1 =>
        let xind := wrapIdx Nx m1 l1
        let ind := linIdx Nx Ny xind yind zind
        let E_23x := ex ((M_sp : ℤ) + l1 - 1) * E_3x ((M_sp : ℤ) + l1 - 1)
        (acc0.1 + V1r * E_23x * gr ind, acc0.2 + V1r * E_23x * gi ind)) acc1) acc2) (0, 0)

/-- One iteration of the per-knot loop body: recompute the three scratch
buffers for this knot's ratios, then run the accumulation loops.  Returns
the new scratch state together with the pair written to
`(outArrayR[i], outArrayI[i])`. -/
def processKnot (p : Params) (E_3x E_3y E_3z gr gi : Arr) (kx ky kz : ℝ)
    (st : Scratch) : Scratch × (ℝ × ℝ) :=
  let ex := knotPass (E_2dummy p.M_rx p.taux kx) p.M_sp st.ex
  let ey := knotPass (E_2dummy p.M_ry p.tauy ky) p.M_sp st.ey
  let ez := knotPass (E_2dummy p.M_rz p.tauz kz) p.M_sp st.ez
  let E_1xyz := E_1 p.M_rx p.taux kx * E_1 p.M_ry p.tauy ky * E_1 p.M_rz p.tauz kz
  (⟨ex, ey, ez⟩,
    accumKnot p.M_sp p.M_rx p.M_ry p.M_rz
      (floorIdx p.M_rx kx) (floorIdx p.M_ry ky) (floorIdx p.M_rz kz)
      E_1xyz ex ey ez E_3x E_3y E_3z gr gi)

/-- The per-knot loop `for(i=0;i<M;i++)`, threading the scratch state and
collecting the per-knot output pairs in order. -/
def runKnots (p : Params) (E_3x E_3y E_3z gr gi : Arr) :
    List (ℝ × ℝ × ℝ) → Scratch → List (ℝ × ℝ)
  | [], _ => []
  | k :: ks, st =>
    let r := processKnot p E_3x E_3y E_3z gr gi k.1 k.2.1 k.2.2 st
    r.2 :: runKnots p E_3x E_3y E_3z gr gi ks r.1

/-- The scratch state left after processing a list of knots (used to state
the buffer invariant). -/
def scratchAfter (p : Params) (E_3x E_3y E_3z gr gi : Arr)
    (ks : List (ℝ × ℝ × ℝ)) (st : Scratch) : Scratch :=
  ks.foldl (fun st k => (processKnot p E_3x E_3y E_3z gr gi k.1 k.2.1 k.2.2 st).1) st

/-- The one-time seeding `E_2x[M_sp-1]=1; E_2y[M_sp-1]=1; E_2z[M_sp-1]=1;`
performed before the knot loop (the rest of the malloc'd buffers is
arbitrary, modelled by an arbitrary initial `Scratch`). -/
def seedScratch (M_sp : ℕ) (st : Scratch) : Scratch :=
  ⟨Function.update st.ex ((M_sp : ℤ) - 1) 1,
   Function.update st.ey ((M_sp : ℤ) - 1) 1,
   Function.update st.ez ((M_sp : ℤ) - 1) 1⟩

/-- The knot fetch convention of the source: the `i`-th knot is
`(knots[i], knots[i+M], knots[i+2M])`. -/
def knotList (knots : ℕ → ℝ) (M : ℕ) : List (ℝ × ℝ × ℝ) :=
  (List.range M).map (fun i => (knots i, knots (i + M), knots (i + 2 * M)))

/-- The whole `mexFunction` computation: seed the scratch buffers, then run
the per-knot loop over all `M` knots. -/
def mexOutputs (p : Params) (E_3x E_3y E_3z gr gi : Arr) (knots : ℕ → ℝ)
    (M : ℕ) (st0 : Scratch) : List (ℝ × ℝ) :=
  runKnots p E_3x E_3y E_3z gr gi (knotList knots M) (seedScratch p.M_sp st0)

/-- `outArrayR[i]`. -/
def outArrayR (p : Params) (E_3x E_3y E_3z gr gi : Arr) (knots : ℕ → ℝ)
    (M : ℕ) (st0 : Scratch) (i : ℕ) : ℝ :=
  ((mexOutputs p E_3x E_3y E_3z gr gi knots M st0).getD i (0, 0)).1

/-- `outArrayI[i]`. -/
def outArrayI (p : Params) (E_3x E_3y E_3z gr gi : Arr) (knots : ℕ → ℝ)
    (M : ℕ) (st0 : Scratch) (i : ℕ) : ℝ :=
  ((mexOutputs p E_3x E_3y E_3z gr gi knots M st0).getD i (0, 0)).2

/-- The list of linear grid indices read by one knot's accumulation loops,
generated by the same triple iteration and the same index arithmetic as
`accumKnot`. -/
def readIndices (p : Params) (kx ky kz : ℝ) : List ℤ :=
  (offs p.M_sp).flatMap (fun l3 =>
    (offs p.M_sp).flatMap (fun l2 =>
      (offs p.M_sp).map (fun l1 =>
        linIdx p.M_rx p.M_ry
          (wrapIdx p.M_rx (floorIdx p.M_rx kx) l1)
          (wrapIdx p.M_ry (floorIdx p.M_ry ky) l2)
          (wrapIdx p.M_rz (floorIdx p.M_rz kz) l3))))

/-- The triple-sum form of one knot's output claimed by the specification:
for each offset triple, the product of the three Gaussian central factors
`exp(-d²/(4τ))` (with `d = knot - m·(2π/N)` the sub-cell offset), the three
ratio-power/table products `ρ^l · E_3[l]`, and the grid sample at the
wrapped linear index. -/
def convSum (p : Params) (E_3x E_3y E_3z g : Arr) (kx ky kz : ℝ) : ℝ :=
  let Msp : ℤ := (p.M_sp : ℤ)
  let m1 := floorIdx p.M_rx kx
  let m2 := floorIdx p.M_ry ky
  let m3 := floorIdx p.M_rz kz
  let dx := kx - (m1 : ℝ) * (2 * Real.pi / (p.M_rx : ℝ))
  let dy := ky - (m2 : ℝ) * (2 * Real.pi / (p.M_ry : ℝ))
  let dz := kz - (m3 : ℝ) * (2 * Real.pi / (p.M_rz : ℝ))
  ∑ l3 ∈ Finset.Icc (1 - Msp) Msp, ∑ l2 ∈ Finset.Icc (1 - Msp) Msp,
    ∑ l1 ∈ Finset.Icc (1 - Msp) Msp,
      Real.exp (-dx ^ 2 / (4 * p.taux)) * Real.exp (-dy ^ 2 / (4 * p.tauy)) *
        Real.exp (-dz ^ 2 / (4 * p.tauz)) *
        (E_2dummy p.M_rx p.taux kx ^ l1 * E_3x (Msp + l1 - 1)) *
        (E_2dummy p.M_ry p.tauy ky ^ l2 * E_3y (Msp + l2 - 1)) *
        (E_2dummy p.M_rz p.tauz kz ^ l3 * E_3z (Msp + l3 - 1)) *
        g (linIdx p.M_rx p.M_ry (wrapIdx p.M_rx m1 l1) (wrapIdx p.M_ry m2 l2)
            (wrapIdx p.M_rz m3 l3))

/-! ### Closed form of the recurrence folds -/

/-- Effect of the forward-recurrence fold on an arbitrary slot: slots
`s, ..., s+n-1` receive successive powers of the ratio times the value one
slot below the start, other slots are untouched. -/
theorem fwdFold_spec (rho : ℝ) :
    ∀ (n : ℕ) (s : ℤ) (b : Arr) (t : ℤ),
      (((List.range n).map (fun j : ℕ => s + (j : ℤ))).foldl
        (fun b j => Function.update b j (rho * b (j - 1))) b) t
      = if s ≤ t ∧ t < s + n then rho ^ ((t - s).toNat + 1) * b (s - 1) else b t := by
  intro n
  induction n with
  | zero =>
    intro s b t
    simp only [List.range_zero, List.map_nil, List.foldl_nil, Nat.cast_zero, add_zero]
    rw [if_neg (by omega)]
  | succ n ih =>
    intro s b t
    rw [List.range_succ, List.map_append, List.foldl_append]
    simp only [List.map_cons, List.map_nil, List.foldl_cons, List.foldl_nil]
    have hB := ih s b
    by_cases ht : t = s + n
    · subst ht
      rw [Function.update_same, hB (s + (n : ℤ) - 1),
        if_pos (show s ≤ s + (n : ℤ) ∧ s + (n : ℤ) < s + ((n + 1 : ℕ) : ℤ) by push_cast; omega)]
      rcases Nat.eq_zero_or_pos n with hn | hn
      · subst hn
        rw [if_neg (by omega)]
        have h0 : s + ((0 : ℕ) : ℤ) - 1 = s - 1 := by push_cast; ring
        have h1 : (s + ((0 : ℕ) : ℤ) - s).toNat + 1 = 1 := by omega
        rw [h0, h1, pow_one]
      · rw [if_pos (show s ≤ s + (n : ℤ) - 1 ∧ s + (n : ℤ) - 1 < s + (n : ℤ) by omega)]
        have hk1 : (s + (n : ℤ) - 1 - s).toNat + 1 = n := by omega
        have hk2 : (s + (n : ℤ) - s).toNat + 1 = n + 1 := by omega
        rw [hk1, hk2, pow_succ]
        ring
    · rw [Function.update_noteq ht, hB t]
      by_cases h2 : s ≤ t ∧ t < s + n
      · rw [if_pos h2, if_pos (by push_cast; omega)]
      · rw [if_neg h2, if_neg (by push_cast; omega)]

/-- Effect of the backward-recurrence fold on an arbitrary slot: slots
`k-1, ..., 0` receive the value one slot above the start times successive
powers of the reciprocal ratio, other slots are untouched. -/
theorem bwdFold_spec (r : ℝ) :
    ∀ (k : ℕ) (b : Arr) (t : ℤ),
      ((((List.range k).reverse).map (fun j : ℕ => (j : ℤ))).foldl
        (fun b j => Function.update b j (b (j + 1) * r)) b) t
      = if 0 ≤ t ∧ t < (k : ℤ) then b (k : ℤ) * r ^ (k - t.toNat) else b t := by
  intro k
  induction k with
  | zero =>
    intro b t
    simp only [List.range_zero, List.reverse_nil, List.map_nil, List.foldl_nil, Nat.cast_zero]
    rw [if_neg (by omega)]
  | succ k ih =>
    intro b t
    rw [List.range_succ, List.reverse_append]
    simp only [List.reverse_cons, List.reverse_nil, List.nil_append, List.singleton_append,
      List.map_cons, List.foldl_cons]
    rw [ih (Function.update b (k : ℤ) (b ((k : ℤ) + 1) * r)) t]
    rcases lt_trichotomy t (k : ℤ) with ht | ht | ht
    · by_cases hlb : 0 ≤ t
      · rw [if_pos ⟨hlb, ht⟩, if_pos (show 0 ≤ t ∧ t < ((k + 1 : ℕ) : ℤ) by push_cast; omega),
          Function.update_same]
        have hc : b ((k : ℤ) + 1) = b (((k + 1 : ℕ) : ℤ)) := by push_cast; ring_nf
        have hk : (k + 1) - t.toNat = (k - t.toNat) + 1 := by omega
        rw [hc, hk, pow_succ]
        ring
      · rw [if_neg (by omega), if_neg (by omega), Function.update_noteq (by omega)]
    · subst ht
      rw [if_neg (by omega), if_pos (show 0 ≤ (k : ℤ) ∧ (k : ℤ) < ((k + 1 : ℕ) : ℤ)
          by push_cast; omega), Function.update_same]
      have hc : b ((k : ℤ) + 1) = b (((k + 1 : ℕ) : ℤ)) := by push_cast; ring_nf
      have hk : (k + 1) - (k : ℤ).toNat = 1 := by omega
      rw [hc, hk, pow_one]
    · rw [if_neg (by omega), if_neg (by push_cast; omega), Function.update_noteq (by omega)]

/-- `fwdPass` in closed form. -/
theorem fwdPass_apply (rho : ℝ) (M_sp : ℕ) (b : Arr) (t : ℤ) :
    fwdPass rho M_sp b t
      = if (M_sp : ℤ) ≤ t ∧ t < (M_sp : ℤ) + M_sp
        then rho ^ ((t - M_sp).toNat + 1) * b ((M_sp : ℤ) - 1) else b t := by
  unfold fwdPass
  rw [fwdFold_spec rho M_sp (M_sp : ℤ) b t]

/-- `bwdPass` in closed form. -/
theorem bwdPass_apply (r : ℝ) (M_sp : ℕ) (b : Arr) (t : ℤ) :
    bwdPass r M_sp b t
      = if 0 ≤ t ∧ t < ((M_sp - 1 : ℕ) : ℤ)
        then b ((M_sp - 1 : ℕ) : ℤ) * r ^ ((M_sp - 1) - t.toNat) else b t := by
  unfold bwdPass
  rw [bwdFold_spec r (M_sp - 1) b t]

/-- Neither recurrence ever writes the central slot `M_sp - 1`: a knot's
buffer rewrite leaves it unchanged. -/
theorem knotPass_central (rho : ℝ) (M_sp : ℕ) (b : Arr) :
    knotPass rho M_sp b ((M_sp : ℤ) - 1) = b ((M_sp : ℤ) - 1) := by
  unfold knotPass
  rw [bwdPass_apply, if_neg (by omega), fwdPass_apply, if_neg (by omega)]

/-- If the central slot holds `1`, then after one knot's buffer rewrite the
slot for offset `l` (array index `M_sp + l - 1`) holds exactly `rho ^ l`. -/
theorem knotPass_slot (rho : ℝ) (M_sp : ℕ) (b : Arr)
    (hb : b ((M_sp : ℤ) - 1) = 1) (l : ℤ)
    (hl1 : 1 - (M_sp : ℤ) ≤ l) (hl2 : l ≤ (M_sp : ℤ)) :
    knotPass rho M_sp b ((M_sp : ℤ) + l - 1) = rho ^ l := by
  unfold knotPass
  rcases lt_trichotomy l 0 with hl | hl | hl
  · rw [bwdPass_apply, if_pos (by constructor <;> omega), fwdPass_apply, if_neg (by omega)]
    rw [show ((M_sp - 1 : ℕ) : ℤ) = (M_sp : ℤ) - 1 by omega, hb, one_mul, one_div]
    have hexp : (M_sp - 1) - ((M_sp : ℤ) + l - 1).toNat = (-l).toNat := by omega
    rw [hexp]
    have htn : (((-l).toNat : ℕ) : ℤ) = -l := Int.toNat_of_nonneg (by omega)
    calc rho⁻¹ ^ (-l).toNat = rho⁻¹ ^ (((-l).toNat : ℕ) : ℤ) := (zpow_natCast _ _).symm
      _ = rho⁻¹ ^ (-l) := by rw [htn]
      _ = rho ^ l := by rw [inv_zpow, ← zpow_neg, neg_neg]
  · subst hl
    rw [bwdPass_apply, if_neg (by omega), fwdPass_apply, if_neg (by omega)]
    simpa using hb
  · rw [bwdPass_apply, if_neg (by omega), fwdPass_apply, if_pos (by constructor <;> omega), hb,
      mul_one]
    have hexp : ((M_sp : ℤ) + l - 1 - M_sp).toNat + 1 = l.toNat := by omega
    rw [hexp]
    have hz : rho ^ l = rho ^ ((l.toNat : ℕ) : ℤ) := by rw [Int.toNat_of_nonneg (by omega)]
    rw [hz, zpow_natCast]

/-! ### Fold-to-sum conversion -/

/-- A left fold that adds `(f x, g x)` componentwise is the pair of list
sums. -/
theorem foldl_pair_add (f g : ℤ → ℝ) :
    ∀ (l : List ℤ) (a : ℝ × ℝ),
      l.foldl (fun acc x => (acc.1 + f x, acc.2 + g x)) a
        = (a.1 + (l.map f).sum, a.2 + (l.map g).sum) := by
  intro l
  induction l with
  | nil => intro a; simp
  | cons x xs ih =>
    intro a
    rw [List.foldl_cons, ih]
    simp only [List.map_cons, List.sum_cons]
    exact Prod.ext (by dsimp; ring) (by dsimp; ring)

/-- Sum of a mapped `List.range` as a `Finset.range` sum. -/
theorem range_map_sum (n : ℕ) (f : ℕ → ℝ) :
    ((List.range n).map f).sum = ∑ j ∈ Finset.range n, f j := by
  induction n with
  | zero => simp
  | succ n ih =>
    rw [List.range_succ, List.map_append, List.sum_append, Finset.sum_range_succ, ih]
    simp

/-- Reindexing an integer `Icc` sum as a `range` sum. -/
theorem sum_Icc_shift (f : ℤ → ℝ) :
    ∀ (n : ℕ) (a : ℤ), ∑ l ∈ Finset.Icc a (a + n - 1), f l = ∑ j ∈ Finset.range n, f (a + j) := by
  intro n
  induction n with
  | zero =>
    intro a
    rw [Finset.Icc_eq_empty (by omega)]
    simp
  | succ n ih =>
    intro a
    have hins : Finset.Icc a (a + (n + 1 : ℕ) - 1) = insert (a + n) (Finset.Icc a (a + n - 1)) := by
      ext x
      simp only [Finset.mem_Icc, Finset.mem_insert]
      push_cast
      omega
    rw [hins, Finset.sum_insert (by simp only [Finset.mem_Icc]; omega), Finset.sum_range_succ,
      ih a]
    ring

/-- The list sum over the loop offsets equals the `Finset.Icc` sum over
`[1 - M_sp, M_sp]`. -/
theorem offs_map_sum (M_sp : ℕ) (f : ℤ → ℝ) :
    ((offs M_sp).map f).sum = ∑ l ∈ Finset.Icc (1 - (M_sp : ℤ)) (M_sp : ℤ), f l := by
  unfold offs
  rw [List.map_map]
  have h1 : ((List.range (2 * M_sp)).map (f ∘ fun j : ℕ => 1 - (M_sp : ℤ) + j)).sum
      = ∑ j ∈ Finset.range (2 * M_sp), f (1 - (M_sp : ℤ) + j) :=
    range_map_sum (2 * M_sp) _
  rw [h1, ← sum_Icc_shift f (2 * M_sp) (1 - (M_sp : ℤ))]
  have : (1 - (M_sp : ℤ)) + (2 * M_sp : ℕ) - 1 = (M_sp : ℤ) := by push_cast; ring
  rw [this]

/-! ### The stateful loop computes the pure triple sum -/

/-- The sub-cell offset in the form used by the specification,
`d = knot - m·(2π/N)` (the code computes `knot - m·π/(N/2)`, the same real
number). -/
theorem suboff_eq (N : ℕ) (k : ℝ) :
    suboff N k = k - (floorIdx N k : ℝ) * (2 * Real.pi / (N : ℝ)) := by
  unfold suboff
  congr 1
  rw [div_div_eq_mul_div]
  ring_nf

/-- `E_1` in the specification's form `exp(-d²/(4τ))`. -/
theorem E_1_eq (N : ℕ) (tau k : ℝ) :
    E_1 N tau k
      = Real.exp (-(k - (floorIdx N k : ℝ) * (2 * Real.pi / (N : ℝ))) ^ 2 / (4 * tau)) := by
  unfold E_1
  rw [suboff_eq]
  congr 1
  ring

/-- One term of the triple accumulation, with the weight grouped as the
source groups it. -/
def wTerm (M_sp Nx Ny Nz : ℕ) (m1 m2 m3 : ℤ) (E_1xyz : ℝ)
    (ex ey ez E_3x E_3y E_3z g : Arr) (l3 l2 l1 : ℤ) : ℝ :=
  E_1xyz * (ez ((M_sp : ℤ) + l3 - 1) * E_3z ((M_sp : ℤ) + l3 - 1)) *
    (ey ((M_sp : ℤ) + l2 - 1) * E_3y ((M_sp : ℤ) + l2 - 1)) *
    (ex ((M_sp : ℤ) + l1 - 1) * E_3x ((M_sp : ℤ) + l1 - 1)) *
    g (linIdx Nx Ny (wrapIdx Nx m1 l1) (wrapIdx Ny m2 l2) (wrapIdx Nz m3 l3))

/-- The sequential triple accumulation loop equals the pair of triple sums
of its terms. -/
theorem accumKnot_eq_sum (M_sp Nx Ny Nz : ℕ) (m1 m2 m3 : ℤ) (E_1xyz : ℝ)
    (ex ey ez E_3x E_3y E_3z gr gi : Arr) :
    accumKnot M_sp Nx Ny Nz m1 m2 m3 E_1xyz ex ey ez E_3x E_3y E_3z gr gi
      = (∑ l3 ∈ Finset.Icc (1 - (M_sp : ℤ)) (M_sp : ℤ),
           ∑ l2 ∈ Finset.Icc (1 - (M_sp : ℤ)) (M_sp : ℤ),
             ∑ l1 ∈ Finset.Icc (1 - (M_sp : ℤ)) (M_sp : ℤ),
               wTerm M_sp Nx Ny Nz m1 m2 m3 E_1xyz ex ey ez E_3x E_3y E_3z gr l3 l2 l1,
         ∑ l3 ∈ Finset.Icc (1 - (M_sp : ℤ)) (M_sp : ℤ),
           ∑ l2 ∈ Finset.Icc (1 - (M_sp : ℤ)) (M_sp : ℤ),
             ∑ l1 ∈ Finset.Icc (1 - (M_sp : ℤ)) (M_sp : ℤ),
               wTerm M_sp Nx Ny Nz m1 m2 m3 E_1xyz ex ey ez E_3x E_3y E_3z gi l3 l2 l1) := by
  simp only [accumKnot, foldl_pair_add, zero_add]
  refine Prod.ext ?_ ?_ <;> dsimp only <;>
    · rw [offs_map_sum]
      refine Finset.sum_congr rfl (fun l3 _ => ?_)
      rw [offs_map_sum]
      refine Finset.sum_congr rfl (fun l2 _ => ?_)
      rw [offs_map_sum]
      exact Finset.sum_congr rfl (fun l1 _ => rfl)

/-- A knot iteration leaves the central slots of all three scratch buffers
unchanged. -/
theorem processKnot_fst_central (p : Params) (E_3x E_3y E_3z gr gi : Arr)
    (kx ky kz : ℝ) (st : Scratch) :
    (processKnot p E_3x E_3y E_3z gr gi kx ky kz st).1.ex ((p.M_sp : ℤ) - 1)
        = st.ex ((p.M_sp : ℤ) - 1) ∧
      (processKnot p E_3x E_3y E_3z gr gi kx ky kz st).1.ey ((p.M_sp : ℤ) - 1)
        = st.ey ((p.M_sp : ℤ) - 1) ∧
      (processKnot p E_3x E_3y E_3z gr gi kx ky kz st).1.ez ((p.M_sp : ℤ) - 1)
        = st.ez ((p.M_sp : ℤ) - 1) :=
  ⟨knotPass_central _ _ _, knotPass_central _ _ _, knotPass_central _ _ _⟩

/-- With the central slots seeded to `1`, a knot iteration's output pair is
the pure triple sum of the specification. -/
theorem processKnot_snd (p : Params) (E_3x E_3y E_3z gr gi : Arr) (kx ky kz : ℝ)
    (st : Scratch) (hx : st.ex ((p.M_sp : ℤ) - 1) = 1)
    (hy : st.ey ((p.M_sp : ℤ) - 1) = 1) (hz : st.ez ((p.M_sp : ℤ) - 1) = 1) :
    (processKnot p E_3x E_3y E_3z gr gi kx ky kz st).2
      = (convSum p E_3x E_3y E_3z gr kx ky kz, convSum p E_3x E_3y E_3z gi kx ky kz) := by
  have key : ∀ g : Arr,
      (∑ l3 ∈ Finset.Icc (1 - (p.M_sp : ℤ)) (p.M_sp : ℤ),
        ∑ l2 ∈ Finset.Icc (1 - (p.M_sp : ℤ)) (p.M_sp : ℤ),
          ∑ l1 ∈ Finset.Icc (1 - (p.M_sp : ℤ)) (p.M_sp : ℤ),
            wTerm p.M_sp p.M_rx p.M_ry p.M_rz
              (floorIdx p.M_rx kx) (floorIdx p.M_ry ky) (floorIdx p.M_rz kz)
              (E_1 p.M_rx p.taux kx * E_1 p.M_ry p.tauy ky * E_1 p.M_rz p.tauz kz)
              (knotPass (E_2dummy p.M_rx p.taux kx) p.M_sp st.ex)
              (knotPass (E_2dummy p.M_ry p.tauy ky) p.M_sp st.ey)
              (knotPass (E_2dummy p.M_rz p.tauz kz) p.M_sp st.ez)
              E_3x E_3y E_3z g l3 l2 l1)
      = convSum p E_3x E_3y E_3z g kx ky kz := by
    intro g
    simp only [convSum]
    refine Finset.sum_congr rfl (fun l3 hl3 => ?_)
    refine Finset.sum_congr rfl (fun l2 hl2 => ?_)
    refine Finset.sum_congr rfl (fun l1 hl1 => ?_)
    rw [Finset.mem_Icc] at hl1 hl2 hl3
    unfold wTerm
    rw [knotPass_slot _ _ _ hx l1 hl1.1 hl1.2, knotPass_slot _ _ _ hy l2 hl2.1 hl2.2,
      knotPass_slot _ _ _ hz l3 hl3.1 hl3.2, E_1_eq, E_1_eq, E_1_eq]
    ring
  simp only [processKnot]
  rw [accumKnot_eq_sum]
  exact Prod.ext (by dsimp only; rw [key gr]) (by dsimp only; rw [key gi])

/-- With seeded central slots, the whole stateful knot loop computes, for
every knot, the pure per-knot triple sum: the outputs are a `map` of a pure
function over the knot list. -/
theorem runKnots_eq (p : Params) (E_3x E_3y E_3z gr gi : Arr) :
    ∀ (ks : List (ℝ × ℝ × ℝ)) (st : Scratch),
      st.ex ((p.M_sp : ℤ) - 1) = 1 → st.ey ((p.M_sp : ℤ) - 1) = 1 →
      st.ez ((p.M_sp : ℤ) - 1) = 1 →
      runKnots p E_3x E_3y E_3z gr gi ks st
        = ks.map (fun k => (convSum p E_3x E_3y E_3z gr k.1 k.2.1 k.2.2,
                            convSum p E_3x E_3y E_3z gi k.1 k.2.1 k.2.2)) := by
  intro ks
  induction ks with
  | nil => intro st _ _ _; rfl
  | cons k ks ih =>
    intro st hx hy hz
    have hc := processKnot_fst_central p E_3x E_3y E_3z gr gi k.1 k.2.1 k.2.2 st
    simp only [runKnots, List.map_cons]
    rw [processKnot_snd p E_3x E_3y E_3z gr gi k.1 k.2.1 k.2.2 st hx hy hz,
      ih _ (hc.1.trans hx) (hc.2.1.trans hy) (hc.2.2.trans hz)]

/-- The seeded scratch buffers hold `1` at the central slot. -/
theorem seedScratch_central (M_sp : ℕ) (st : Scratch) :
    (seedScratch M_sp st).ex ((M_sp : ℤ) - 1) = 1 ∧
      (seedScratch M_sp st).ey ((M_sp : ℤ) - 1) = 1 ∧
      (seedScratch M_sp st).ez ((M_sp : ℤ) - 1) = 1 :=
  ⟨Function.update_same _ _ _, Function.update_same _ _ _, Function.update_same _ _ _⟩

/-- `getD` of a function mapped over `List.range`. -/
theorem getD_map_range (M i : ℕ) (hi : i < M) (F : ℕ → ℝ × ℝ) (d : ℝ × ℝ) :
    ((List.range M).map F).getD i d = F i := by
  rw [List.getD_eq_getElem _ d (by simp [hi]), List.getElem_map, List.getElem_range]

/-- `outArrayR[i]` in pure form, for `i < M`. -/
theorem outArrayR_eq (p : Params) (E_3x E_3y E_3z gr gi : Arr) (knots : ℕ → ℝ)
    (M : ℕ) (st0 : Scratch) (i : ℕ) (hi : i < M) :
    outArrayR p E_3x E_3y E_3z gr gi knots M st0 i
      = convSum p E_3x E_3y E_3z gr (knots i) (knots (i + M)) (knots (i + 2 * M)) := by
  have hs := seedScratch_central p.M_sp st0
  unfold outArrayR mexOutputs
  rw [runKnots_eq p E_3x E_3y E_3z gr gi (knotList knots M) _ hs.1 hs.2.1 hs.2.2]
  unfold knotList
  rw [List.map_map, getD_map_range M i hi]
  rfl

/-- `outArrayI[i]` in pure form, for `i < M`. -/
theorem outArrayI_eq (p : Params) (E_3x E_3y E_3z gr gi : Arr) (knots : ℕ → ℝ)
    (M : ℕ) (st0 : Scratch) (i : ℕ) (hi : i < M) :
    outArrayI p E_3x E_3y E_3z gr gi knots M st0 i
      = convSum p E_3x E_3y E_3z gi (knots i) (knots (i + M)) (knots (i + 2 * M)) := by
  have hs := seedScratch_central p.M_sp st0
  unfold outArrayI mexOutputs
  rw [runKnots_eq p E_3x E_3y E_3z gr gi (knotList knots M) _ hs.1 hs.2.1 hs.2.2]
  unfold knotList
  rw [List.map_map, getD_map_range M i hi]
  rfl

/-! ### Concrete instances used to exercise the theorems -/

/-- A small parameter set: `M_sp = 1`, unit spreading widths, `2×2×2` grid. -/
def pW : Params := ⟨1, 1, 1, 1, 2, 2, 2⟩

/-- The all-zeros array. -/
def zeroArr : Arr := fun _ => 0

/-- The all-ones array. -/
def oneArr : Arr := fun _ => 1

/-- A zero-initialized scratch state. -/
def zeroScratch : Scratch := ⟨zeroArr, zeroArr, zeroArr⟩

/-- All knots at the origin. -/
def zeroKnots : ℕ → ℝ := fun _ => 0

/-- A buffer holding `1` at slot `1` (the central slot for `M_sp = 2`). -/
def cBuf : Arr := fun t => if t = 1 then 1 else 0

/-- A single knot's coordinates laid out in the `3·M` column convention
with `M = 1`. -/
def singleKnot (kx ky kz : ℝ) : ℕ → ℝ :=
  fun j => if j = 0 then kx else if j = 1 then ky else if j = 2 then kz else 0

/-! ### Claims -/

/-- C1: for every knot `i` with `0 ≤ i < M`, the engine's output for knot
`i` (real and imaginary component alike) equals the triple sum over all
offset triples `(l1,l2,l3)` with each `l` in `[1-M_sp, M_sp]` of
`exp(-dx²/(4τx))·exp(-dy²/(4τy))·exp(-dz²/(4τz))` times the per-axis
ratio-power/kernel-table products times the grid sample at the wrapped
linear index — with `d = knot - m·(2π/N)` and `m = floor(N·knot/(2π))`. -/
theorem C1_output_eq_triple_sum (p : Params) (E_3x E_3y E_3z gr gi : Arr)
    (knots : ℕ → ℝ) (M : ℕ) (st0 : Scratch) (i : ℕ) (hi : i < M) :
    outArrayR p E_3x E_3y E_3z gr gi knots M st0 i
        = convSum p E_3x E_3y E_3z gr (knots i) (knots (i + M)) (knots (i + 2 * M)) ∧
      outArrayI p E_3x E_3y E_3z gr gi knots M st0 i
        = convSum p E_3x E_3y E_3z gi (knots i) (knots (i + M)) (knots (i + 2 * M)) :=
  ⟨outArrayR_eq p E_3x E_3y E_3z gr gi knots M st0 i hi,
   outArrayI_eq p E_3x E_3y E_3z gr gi knots M st0 i hi⟩

/-- Witness for C1 at a concrete instance. -/
theorem C1_witness :
    0 < 1 ∧
      (outArrayR pW oneArr oneArr oneArr oneArr oneArr zeroKnots 1 zeroScratch 0
          = convSum pW oneArr oneArr oneArr oneArr (zeroKnots 0) (zeroKnots (0 + 1))
              (zeroKnots (0 + 2 * 1)) ∧
        outArrayI pW oneArr oneArr oneArr oneArr oneArr zeroKnots 1 zeroScratch 0
          = convSum pW oneArr oneArr oneArr oneArr (zeroKnots 0) (zeroKnots (0 + 1))
              (zeroKnots (0 + 2 * 1))) :=
  ⟨Nat.one_pos,
   C1_output_eq_triple_sum pW oneArr oneArr oneArr oneArr oneArr zeroKnots 1 zeroScratch 0
     Nat.one_pos⟩

/-- C4: for nonzero `rho` and every offset `l ∈ [1-M_sp, M_sp]`, the value
the forward/backward recurrences place in the slot for offset `l` (array
index `M_sp + l - 1`), starting from a buffer whose central slot holds `1`,
is exactly `rho ^ l` as computed by direct exponentiation. -/
theorem C4_recurrence_eq_pow (rho : ℝ) (hrho : rho ≠ 0) (M_sp : ℕ) (b : Arr)
    (hb : b ((M_sp : ℤ) - 1) = 1) (l : ℤ)
    (hl1 : 1 - (M_sp : ℤ) ≤ l) (hl2 : l ≤ (M_sp : ℤ)) :
    knotPass rho M_sp b ((M_sp : ℤ) + l - 1) = rho ^ l :=
  knotPass_slot rho M_sp b hb l hl1 hl2

/-- Witness for C4 at a concrete instance. -/
theorem C4_witness :
    (2 : ℝ) ≠ 0 ∧ cBuf (((2 : ℕ) : ℤ) - 1) = 1 ∧
      (1 - ((2 : ℕ) : ℤ) ≤ 2 ∧ (2 : ℤ) ≤ ((2 : ℕ) : ℤ)) ∧
      knotPass 2 2 cBuf (((2 : ℕ) : ℤ) + 2 - 1) = (2 : ℝ) ^ (2 : ℤ) :=
  ⟨two_ne_zero, by simp [cBuf], ⟨by decide, by decide⟩,
   C4_recurrence_eq_pow 2 two_ne_zero 2 cBuf (by simp [cBuf]) 2 (by decide) (by decide)⟩

/-- The central slot survives any sequence of knot iterations. -/
theorem scratchAfter_central (p : Params) (E_3x E_3y E_3z gr gi : Arr) :
    ∀ (ks : List (ℝ × ℝ × ℝ)) (st : Scratch),
      st.ex ((p.M_sp : ℤ) - 1) = 1 → st.ey ((p.M_sp : ℤ) - 1) = 1 →
      st.ez ((p.M_sp : ℤ) - 1) = 1 →
      (scratchAfter p E_3x E_3y E_3z gr gi ks st).ex ((p.M_sp : ℤ) - 1) = 1 ∧
        (scratchAfter p E_3x E_3y E_3z gr gi ks st).ey ((p.M_sp : ℤ) - 1) = 1 ∧
        (scratchAfter p E_3x E_3y E_3z gr gi ks st).ez ((p.M_sp : ℤ) - 1) = 1 := by
  intro ks
  induction ks with
  | nil => intro st hx hy hz; exact ⟨hx, hy, hz⟩
  | cons k ks ih =>
    intro st hx hy hz
    have hc := processKnot_fst_central p E_3x E_3y E_3z gr gi k.1 k.2.1 k.2.2 st
    exact ih _ (hc.1.trans hx) (hc.2.1.trans hy) (hc.2.2.trans hz)

/-- C5: the per-axis weight buffers hold exactly `1` at the central slot
(array index `M_sp - 1`) after the one-time seed and after every knot
iteration, for any knot sequence, any inputs, and any initial buffer
contents: neither recurrence overwrites the central slot. -/
theorem C5_central_tap_invariant (p : Params) (E_3x E_3y E_3z gr gi : Arr)
    (ks : List (ℝ × ℝ × ℝ)) (st0 : Scratch) :
    (scratchAfter p E_3x E_3y E_3z gr gi ks (seedScratch p.M_sp st0)).ex ((p.M_sp : ℤ) - 1)
        = 1 ∧
      (scratchAfter p E_3x E_3y E_3z gr gi ks (seedScratch p.M_sp st0)).ey ((p.M_sp : ℤ) - 1)
        = 1 ∧
      (scratchAfter p E_3x E_3y E_3z gr gi ks (seedScratch p.M_sp st0)).ez ((p.M_sp : ℤ) - 1)
        = 1 := by
  have hs := seedScratch_central p.M_sp st0
  exact scratchAfter_central p E_3x E_3y E_3z gr gi ks _ hs.1 hs.2.1 hs.2.2

/-! ### Index bounds -/

/-- Membership in the loop offset list. -/
theorem mem_offs (M_sp : ℕ) (l : ℤ) :
    l ∈ offs M_sp ↔ 1 - (M_sp : ℤ) ≤ l ∧ l ≤ (M_sp : ℤ) := by
  unfold offs
  simp only [List.mem_map, List.mem_range]
  constructor
  · rintro ⟨j, hj, rfl⟩
    omega
  · intro h
    exact ⟨(l - (1 - (M_sp : ℤ))).toNat, by omega, by omega⟩

/-- The loop offset list has `2·M_sp` entries. -/
theorem offs_length (M_sp : ℕ) : (offs M_sp).length = 2 * M_sp := by
  simp [offs]

/-- Length of a `flatMap` whose pieces all have the same length. -/
theorem length_flatMap_const {α β : Type} (l : List α) (f : α → List β) (n : ℕ)
    (h : ∀ a ∈ l, (f a).length = n) : (l.flatMap f).length = l.length * n := by
  induction l with
  | nil => simp
  | cons x xs ih =>
    rw [List.flatMap_cons, List.length_append, h x (by simp),
      ih (fun a ha => h a (by simp [ha])), List.length_cons]
    ring

/-- For a knot coordinate in `[0, 2π)`, the nearest lattice index lies in
`[0, N)`. -/
theorem floorIdx_bounds (N : ℕ) (hN : 0 < N) (k : ℝ) (hk0 : 0 ≤ k)
    (hk1 : k < 2 * Real.pi) : 0 ≤ floorIdx N k ∧ floorIdx N k < (N : ℤ) := by
  unfold floorIdx
  constructor
  · apply Int.floor_nonneg.mpr
    positivity
  · rw [Int.floor_lt]
    push_cast
    rw [div_lt_iff₀ Real.two_pi_pos]
    have hNr : (0 : ℝ) < (N : ℝ) := by positivity
    calc (N : ℝ) * k < (N : ℝ) * (2 * Real.pi) := by
          exact mul_lt_mul_of_pos_left hk1 hNr
      _ = (N : ℝ) * (2 * Real.pi) := rfl

/-- The boundary wrap sends every in-window candidate index into
`[0, N)`, provided the lattice index is in range, the extent is even, and
`2·M_sp ≤ N`. -/
theorem wrapIdx_bounds (N : ℕ) (hNpos : 0 < N) (hNeven : Even N) (M_sp : ℕ)
    (h2M : 2 * M_sp ≤ N) (m l : ℤ) (hm0 : 0 ≤ m) (hm1 : m < (N : ℤ))
    (hl1 : 1 - (M_sp : ℤ) ≤ l) (hl2 : l ≤ (M_sp : ℤ)) :
    0 ≤ wrapIdx N m l ∧ wrapIdx N m l < (N : ℤ) := by
  obtain ⟨r, hr⟩ := hNeven
  simp only [wrapIdx]
  split_ifs <;> constructor <;> omega

/-- Linear index bounds from per-axis bounds. -/
theorem linIdx_bounds (Nx Ny Nz : ℕ) (x y z : ℤ)
    (hx0 : 0 ≤ x) (hx1 : x < (Nx : ℤ)) (hy0 : 0 ≤ y) (hy1 : y < (Ny : ℤ))
    (hz0 : 0 ≤ z) (hz1 : z < (Nz : ℤ)) :
    0 ≤ linIdx Nx Ny x y z ∧ linIdx Nx Ny x y z < (Nx : ℤ) * (Ny : ℤ) * (Nz : ℤ) := by
  unfold linIdx
  have hNx : (0 : ℤ) ≤ (Nx : ℤ) := by positivity
  have hNxy : (0 : ℤ) ≤ (Nx : ℤ) * (Ny : ℤ) := by positivity
  constructor
  · have h1 : (0 : ℤ) ≤ (Nx : ℤ) * y := mul_nonneg hNx hy0
    have h2 : (0 : ℤ) ≤ ((Nx : ℤ) * (Ny : ℤ)) * z := mul_nonneg hNxy hz0
    linarith
  · have hyb : (Nx : ℤ) * y ≤ (Nx : ℤ) * ((Ny : ℤ) - 1) :=
      mul_le_mul_of_nonneg_left (by omega) hNx
    have hzb : ((Nx : ℤ) * (Ny : ℤ)) * z ≤ ((Nx : ℤ) * (Ny : ℤ)) * ((Nz : ℤ) - 1) :=
      mul_le_mul_of_nonneg_left (by omega) hNxy
    nlinarith

/-- C2: under the stated preconditions, one knot's accumulation reads
exactly `(2·M_sp)³` grid cells and every linear index it reads lies in
`[0, Nx·Ny·Nz)`: no out-of-bounds access. -/
theorem C2_no_out_of_bounds (p : Params) (kx ky kz : ℝ)
    (hkx0 : 0 ≤ kx) (hkx1 : kx < 2 * Real.pi)
    (hky0 : 0 ≤ ky) (hky1 : ky < 2 * Real.pi)
    (hkz0 : 0 ≤ kz) (hkz1 : kz < 2 * Real.pi)
    (hex : Even p.M_rx) (hey : Even p.M_ry) (hez : Even p.M_rz)
    (hpx : 0 < p.M_rx) (hpy : 0 < p.M_ry) (hpz : 0 < p.M_rz)
    (hM : 1 ≤ p.M_sp)
    (h2x : 2 * p.M_sp ≤ p.M_rx) (h2y : 2 * p.M_sp ≤ p.M_ry) (h2z : 2 * p.M_sp ≤ p.M_rz) :
    (readIndices p kx ky kz).length = (2 * p.M_sp) ^ 3 ∧
      ∀ ind ∈ readIndices p kx ky kz,
        0 ≤ ind ∧ ind < (p.M_rx : ℤ) * (p.M_ry : ℤ) * (p.M_rz : ℤ) := by
  constructor
  · unfold readIndices
    rw [length_flatMap_const _ _ ((2 * p.M_sp) * (2 * p.M_sp))
        (fun l3 _ => by
          rw [length_flatMap_const _ _ (2 * p.M_sp)
              (fun l2 _ => by rw [List.length_map, offs_length]), offs_length]),
      offs_length]
    ring
  · intro ind hind
    simp only [readIndices, List.mem_flatMap, List.mem_map] at hind
    obtain ⟨l3, hl3, l2, hl2, l1, hl1, rfl⟩ := hind
    rw [mem_offs] at hl1 hl2 hl3
    have hm1 := floorIdx_bounds p.M_rx hpx kx hkx0 hkx1
    have hm2 := floorIdx_bounds p.M_ry hpy ky hky0 hky1
    have hm3 := floorIdx_bounds p.M_rz hpz kz hkz0 hkz1
    have hw1 := wrapIdx_bounds p.M_rx hpx hex p.M_sp h2x _ l1 hm1.1 hm1.2 hl1.1 hl1.2
    have hw2 := wrapIdx_bounds p.M_ry hpy hey p.M_sp h2y _ l2 hm2.1 hm2.2 hl2.1 hl2.2
    have hw3 := wrapIdx_bounds p.M_rz hpz hez p.M_sp h2z _ l3 hm3.1 hm3.2 hl3.1 hl3.2
    exact linIdx_bounds p.M_rx p.M_ry p.M_rz _ _ _ hw1.1 hw1.2 hw2.1 hw2.2 hw3.1 hw3.2

/-- Witness for C2 at a concrete instance. -/
theorem C2_witness :
    ((0 : ℝ) ≤ 0 ∧ (0 : ℝ) < 2 * Real.pi) ∧
      (Even pW.M_rx ∧ 0 < pW.M_rx ∧ 1 ≤ pW.M_sp ∧ 2 * pW.M_sp ≤ pW.M_rx) ∧
      ((readIndices pW 0 0 0).length = (2 * pW.M_sp) ^ 3 ∧
        ∀ ind ∈ readIndices pW 0 0 0,
          0 ≤ ind ∧ ind < (pW.M_rx : ℤ) * (pW.M_ry : ℤ) * (pW.M_rz : ℤ)) :=
  ⟨⟨le_refl 0, Real.two_pi_pos⟩, ⟨by decide, by decide, by decide, by decide⟩,
   C2_no_out_of_bounds pW 0 0 0 (le_refl 0) Real.two_pi_pos (le_refl 0) Real.two_pi_pos
     (le_refl 0) Real.two_pi_pos (by decide) (by decide) (by decide) (by decide) (by decide)
     (by decide) (by decide) (by decide) (by decide) (by decide)⟩

/-! ### Linearity in the grid samples -/

/-- `convSum` scales with a scalar multiple of the grid. -/
theorem convSum_smul (p : Params) (E_3x E_3y E_3z g : Arr) (c : ℝ) (kx ky kz : ℝ) :
    convSum p E_3x E_3y E_3z (fun j => c * g j) kx ky kz
      = c * convSum p E_3x E_3y E_3z g kx ky kz := by
  unfold convSum
  simp only [Finset.mul_sum]
  exact Finset.sum_congr rfl fun l3 _ => Finset.sum_congr rfl fun l2 _ =>
    Finset.sum_congr rfl fun l1 _ => by ring

/-- `convSum` is additive in the grid. -/
theorem convSum_add (p : Params) (E_3x E_3y E_3z g h : Arr) (kx ky kz : ℝ) :
    convSum p E_3x E_3y E_3z (fun j => g j + h j) kx ky kz
      = convSum p E_3x E_3y E_3z g kx ky kz + convSum p E_3x E_3y E_3z h kx ky kz := by
  unfold convSum
  simp only [← Finset.sum_add_distrib]
  exact Finset.sum_congr rfl fun l3 _ => Finset.sum_congr rfl fun l2 _ =>
    Finset.sum_congr rfl fun l1 _ => by ring

/-- `convSum` of the zero grid vanishes. -/
theorem convSum_zero (p : Params) (E_3x E_3y E_3z : Arr) (kx ky kz : ℝ) :
    convSum p E_3x E_3y E_3z zeroArr kx ky kz = 0 := by
  unfold convSum zeroArr
  simp

/-- `convSum` of a negated grid is the negated `convSum`. -/
theorem convSum_neg (p : Params) (E_3x E_3y E_3z g : Arr) (kx ky kz : ℝ) :
    convSum p E_3x E_3y E_3z (fun j => -(g j)) kx ky kz
      = -(convSum p E_3x E_3y E_3z g kx ky kz) := by
  unfold convSum
  simp only [← Finset.sum_neg_distrib]
  exact Finset.sum_congr rfl fun l3 _ => Finset.sum_congr rfl fun l2 _ =>
    Finset.sum_congr rfl fun l1 _ => by ring

/-- The output list has one entry per knot. -/
theorem runKnots_length (p : Params) (E_3x E_3y E_3z gr gi : Arr) :
    ∀ (ks : List (ℝ × ℝ × ℝ)) (st : Scratch),
      (runKnots p E_3x E_3y E_3z gr gi ks st).length = ks.length := by
  intro ks
  induction ks with
  | nil => intro st; rfl
  | cons k ks ih =>
    intro st
    simp only [runKnots, List.length_cons, ih]

/-- Past the end of the output arrays, the `getD` default `0` is read. -/
theorem outArrayR_of_ge (p : Params) (E_3x E_3y E_3z gr gi : Arr) (knots : ℕ → ℝ)
    (M : ℕ) (st0 : Scratch) (i : ℕ) (hi : M ≤ i) :
    outArrayR p E_3x E_3y E_3z gr gi knots M st0 i = 0 := by
  unfold outArrayR
  rw [List.getD_eq_default]
  unfold mexOutputs
  rw [runKnots_length]
  simpa [knotList] using hi

/-- Past the end of the output arrays, the `getD` default `0` is read. -/
theorem outArrayI_of_ge (p : Params) (E_3x E_3y E_3z gr gi : Arr) (knots : ℕ → ℝ)
    (M : ℕ) (st0 : Scratch) (i : ℕ) (hi : M ≤ i) :
    outArrayI p E_3x E_3y E_3z gr gi knots M st0 i = 0 := by
  unfold outArrayI
  rw [List.getD_eq_default]
  unfold mexOutputs
  rw [runKnots_length]
  simpa [knotList] using hi

/-- C6: with knots, kernel tables, and parameters fixed, the engine's
output is linear in the grid samples: scaling every grid sample (real and
imaginary alike) by `c` scales every output by `c`, and running on the
componentwise sum of two grids gives, entrywise, the sum of the two
separate runs. -/
theorem C6_linearity (p : Params) (E_3x E_3y E_3z : Arr) (knots : ℕ → ℝ) (M : ℕ)
    (st0 : Scratch) (i : ℕ) (c : ℝ) (gr gi fr fi : Arr) :
    (outArrayR p E_3x E_3y E_3z (fun j => c * gr j) (fun j => c * gi j) knots M st0 i
        = c * outArrayR p E_3x E_3y E_3z gr gi knots M st0 i) ∧
      (outArrayI p E_3x E_3y E_3z (fun j => c * gr j) (fun j => c * gi j) knots M st0 i
        = c * outArrayI p E_3x E_3y E_3z gr gi knots M st0 i) ∧
      (outArrayR p E_3x E_3y E_3z (fun j => gr j + fr j) (fun j => gi j + fi j) knots M st0 i
        = outArrayR p E_3x E_3y E_3z gr gi knots M st0 i
            + outArrayR p E_3x E_3y E_3z fr fi knots M st0 i) ∧
      (outArrayI p E_3x E_3y E_3z (fun j => gr j + fr j) (fun j => gi j + fi j) knots M st0 i
        = outArrayI p E_3x E_3y E_3z gr gi knots M st0 i
            + outArrayI p E_3x E_3y E_3z fr fi knots M st0 i) := by
  by_cases hi : i < M
  · refine ⟨?_, ?_, ?_, ?_⟩
    · rw [outArrayR_eq _ _ _ _ _ _ _ _ _ _ hi, outArrayR_eq _ _ _ _ _ _ _ _ _ _ hi,
        convSum_smul]
    · rw [outArrayI_eq _ _ _ _ _ _ _ _ _ _ hi, outArrayI_eq _ _ _ _ _ _ _ _ _ _ hi,
        convSum_smul]
    · rw [outArrayR_eq _ _ _ _ _ _ _ _ _ _ hi, outArrayR_eq _ _ _ _ _ _ _ _ _ _ hi,
        outArrayR_eq _ _ _ _ _ _ _ _ _ _ hi, convSum_add]
    · rw [outArrayI_eq _ _ _ _ _ _ _ _ _ _ hi, outArrayI_eq _ _ _ _ _ _ _ _ _ _ hi,
        outArrayI_eq _ _ _ _ _ _ _ _ _ _ hi, convSum_add]
  · have hge : M ≤ i := le_of_not_lt hi
    repeat rw [outArrayR_of_ge _ _ _ _ _ _ _ _ _ _ hge]
    repeat rw [outArrayI_of_ge _ _ _ _ _ _ _ _ _ _ hge]
    norm_num

/-- C10: every accumulation applies one purely real weight to both complex
components, so the engine treats the two components identically: a zero
imaginary grid yields zero imaginary outputs, and conjugating the grid
(negating its imaginary part) conjugates every output (negates the
imaginary outputs and leaves the real outputs unchanged). -/
theorem C10_real_kernel (p : Params) (E_3x E_3y E_3z gr gi : Arr) (knots : ℕ → ℝ)
    (M : ℕ) (st0 : Scratch) (i : ℕ) :
    (outArrayI p E_3x E_3y E_3z gr zeroArr knots M st0 i = 0) ∧
      (outArrayI p E_3x E_3y E_3z gr (fun j => -(gi j)) knots M st0 i
        = -(outArrayI p E_3x E_3y E_3z gr gi knots M st0 i)) ∧
      (outArrayR p E_3x E_3y E_3z gr (fun j => -(gi j)) knots M st0 i
        = outArrayR p E_3x E_3y E_3z gr gi knots M st0 i) := by
  by_cases hi : i < M
  · refine ⟨?_, ?_, ?_⟩
    · rw [outArrayI_eq _ _ _ _ _ _ _ _ _ _ hi, convSum_zero]
    · rw [outArrayI_eq _ _ _ _ _ _ _ _ _ _ hi, outArrayI_eq _ _ _ _ _ _ _ _ _ _ hi,
        convSum_neg]
    · rw [outArrayR_eq _ _ _ _ _ _ _ _ _ _ hi, outArrayR_eq _ _ _ _ _ _ _ _ _ _ hi]
  · have hge : M ≤ i := le_of_not_lt hi
    repeat rw [outArrayR_of_ge _ _ _ _ _ _ _ _ _ _ hge]
    repeat rw [outArrayI_of_ge _ _ _ _ _ _ _ _ _ _ hge]
    norm_num

/-! ### The geometric-ratio identity -/

/-- Integer powers of `Real.exp`. -/
theorem exp_zpow (x : ℝ) (l : ℤ) : Real.exp x ^ l = Real.exp (l * x) := by
  rcases l with n | n
  · rw [Int.ofNat_eq_natCast, zpow_natCast, ← Real.exp_nat_mul]
    push_cast
    ring_nf
  · rw [zpow_negSucc, ← Real.exp_nat_mul, ← Real.exp_neg]
    congr 1
    push_cast
    ring

/-- The Gaussian shift identity realised by the code's ratio `E_2dummy`:
shifting the Gaussian central factor by `l` lattice steps multiplies it by
the `l`-th power of the ratio and a knot-independent factor. -/
theorem gauss_shift (N : ℕ) (hN : 0 < N) (tau : ℝ) (htau : tau ≠ 0) (knot : ℝ) (l : ℤ) :
    Real.exp (-(suboff N knot - l * (2 * Real.pi / (N : ℝ))) ^ 2 / (4 * tau))
      = E_1 N tau knot * E_2dummy N tau knot ^ l
          * Real.exp (-(l * (2 * Real.pi / (N : ℝ))) ^ 2 / (4 * tau)) := by
  unfold E_1 E_2dummy
  rw [exp_zpow, ← Real.exp_add, ← Real.exp_add]
  congr 1
  have hNr : ((N : ℝ)) ≠ 0 := Nat.cast_ne_zero.mpr (by omega)
  field_simp
  ring

/-- The ratio formula asserted by the specification sentence behind C3:
`ρ = exp(d·2π/(N·τ))`. -/
def claimRho (N : ℕ) (tau knot : ℝ) : ℝ :=
  Real.exp (suboff N knot * (2 * Real.pi) / ((N : ℝ) * tau))

/-- C3 counterexample: at `N = 2`, `τ = 1`, `knot = π/2` the code's ratio
`exp(d·π/(N·τ))` differs from the claimed `exp(d·2π/(N·τ))`. -/
theorem C3_counterexample : E_2dummy 2 1 (Real.pi / 2) ≠ claimRho 2 1 (Real.pi / 2) := by
  have hs : suboff 2 (Real.pi / 2) = Real.pi / 2 := by
    unfold suboff floorIdx
    have hpi := Real.pi_ne_zero
    have harg : ((2 : ℕ) : ℝ) * (Real.pi / 2) / (2 * Real.pi) = 1 / 2 := by
      push_cast
      field_simp
      ring
    have hfloor : ⌊(1 / 2 : ℝ)⌋ = 0 := by
      rw [Int.floor_eq_zero_iff]
      constructor <;> norm_num
    rw [harg, hfloor]
    norm_num
  unfold E_2dummy claimRho
  rw [hs]
  intro h
  have h2 := Real.exp_injective h
  push_cast at h2
  ring_nf at h2
  have hp2 : 0 < Real.pi ^ 2 := by positivity
  nlinarith [h2, hp2]

/-- C3 amended: the per-axis geometric ratio actually used is
`ρ = exp(d·π/(N·τ))` — half the exponent the claim states — and with this
ratio the shifted-Gaussian identity of the specification's step 3 holds
exactly. -/
theorem C3_amended_ratio_identity (N : ℕ) (hN : 0 < N) (tau : ℝ) (htau : tau ≠ 0)
    (knot : ℝ) (l : ℤ) :
    E_2dummy N tau knot = Real.exp (suboff N knot * Real.pi / ((N : ℝ) * tau)) ∧
      Real.exp (-(suboff N knot - l * (2 * Real.pi / (N : ℝ))) ^ 2 / (4 * tau))
        = E_1 N tau knot * E_2dummy N tau knot ^ l
            * Real.exp (-(l * (2 * Real.pi / (N : ℝ))) ^ 2 / (4 * tau)) :=
  ⟨rfl, gauss_shift N hN tau htau knot l⟩

/-- Witness for the amended C3 at a concrete instance. -/
theorem C3_amended_witness :
    0 < 2 ∧ (1 : ℝ) ≠ 0 ∧
      (E_2dummy 2 1 0 = Real.exp (suboff 2 0 * Real.pi / ((2 : ℕ) * 1)) ∧
        Real.exp (-(suboff 2 0 - (1 : ℤ) * (2 * Real.pi / ((2 : ℕ) : ℝ))) ^ 2 / (4 * 1))
          = E_1 2 1 0 * E_2dummy 2 1 0 ^ (1 : ℤ)
              * Real.exp (-((1 : ℤ) * (2 * Real.pi / ((2 : ℕ) : ℝ))) ^ 2 / (4 * 1))) :=
  ⟨by decide, one_ne_zero, C3_amended_ratio_identity 2 (by decide) 1 one_ne_zero 0 1⟩

/-- C9: each output entry depends only on that knot's own coordinates (and
the shared grid, tables and parameters): runs differing only in other
knots' coordinates or in the initial scratch contents agree at entry `i`,
and reindexing the knot array reindexes the outputs identically. -/
theorem C9_knot_independence (p : Params) (E_3x E_3y E_3z gr gi : Arr)
    (knots knots2 knots3 : ℕ → ℝ) (M : ℕ) (st0 st02 : Scratch) (i : ℕ) (hi : i < M)
    (hsame1 : knots i = knots2 i) (hsame2 : knots (i + M) = knots2 (i + M))
    (hsame3 : knots (i + 2 * M) = knots2 (i + 2 * M))
    (sigma : ℕ → ℕ) (hsig : ∀ j, j < M → sigma j < M)
    (hperm : ∀ j, j < M →
      knots3 j = knots (sigma j) ∧ knots3 (j + M) = knots (sigma j + M) ∧
        knots3 (j + 2 * M) = knots (sigma j + 2 * M)) :
    (outArrayR p E_3x E_3y E_3z gr gi knots M st0 i
        = outArrayR p E_3x E_3y E_3z gr gi knots2 M st02 i ∧
      outArrayI p E_3x E_3y E_3z gr gi knots M st0 i
        = outArrayI p E_3x E_3y E_3z gr gi knots2 M st02 i) ∧
    ∀ j, j < M →
      outArrayR p E_3x E_3y E_3z gr gi knots3 M st02 j
          = outArrayR p E_3x E_3y E_3z gr gi knots M st0 (sigma j) ∧
        outArrayI p E_3x E_3y E_3z gr gi knots3 M st02 j
          = outArrayI p E_3x E_3y E_3z gr gi knots M st0 (sigma j) := by
  constructor
  · constructor
    · rw [outArrayR_eq _ _ _ _ _ _ _ _ _ _ hi, outArrayR_eq _ _ _ _ _ _ _ _ _ _ hi,
        hsame1, hsame2, hsame3]
    · rw [outArrayI_eq _ _ _ _ _ _ _ _ _ _ hi, outArrayI_eq _ _ _ _ _ _ _ _ _ _ hi,
        hsame1, hsame2, hsame3]
  · intro j hj
    have hp := hperm j hj
    constructor
    · rw [outArrayR_eq _ _ _ _ _ _ _ _ _ _ hj, outArrayR_eq _ _ _ _ _ _ _ _ _ _ (hsig j hj),
        hp.1, hp.2.1, hp.2.2]
    · rw [outArrayI_eq _ _ _ _ _ _ _ _ _ _ hj, outArrayI_eq _ _ _ _ _ _ _ _ _ _ (hsig j hj),
        hp.1, hp.2.1, hp.2.2]

/-- Witness for C9 at a concrete instance. -/
theorem C9_witness :
    0 < 1 ∧
      (zeroKnots 0 = zeroKnots 0 ∧ zeroKnots (0 + 1) = zeroKnots (0 + 1) ∧
        zeroKnots (0 + 2 * 1) = zeroKnots (0 + 2 * 1)) ∧
      (∀ j : ℕ, j < 1 → id j < 1) ∧
      (∀ j : ℕ, j < 1 →
        zeroKnots j = zeroKnots (id j) ∧ zeroKnots (j + 1) = zeroKnots (id j + 1) ∧
          zeroKnots (j + 2 * 1) = zeroKnots (id j + 2 * 1)) ∧
      ((outArrayR pW oneArr oneArr oneArr oneArr oneArr zeroKnots 1 zeroScratch 0
          = outArrayR pW oneArr oneArr oneArr oneArr oneArr zeroKnots 1 zeroScratch 0 ∧
        outArrayI pW oneArr oneArr oneArr oneArr oneArr zeroKnots 1 zeroScratch 0
          = outArrayI pW oneArr oneArr oneArr oneArr oneArr zeroKnots 1 zeroScratch 0) ∧
      ∀ j, j < 1 →
        outArrayR pW oneArr oneArr oneArr oneArr oneArr zeroKnots 1 zeroScratch j
            = outArrayR pW oneArr oneArr oneArr oneArr oneArr zeroKnots 1 zeroScratch (id j) ∧
          outArrayI pW oneArr oneArr oneArr oneArr oneArr zeroKnots 1 zeroScratch j
            = outArrayI pW oneArr oneArr oneArr oneArr oneArr zeroKnots 1 zeroScratch (id j)) :=
  ⟨Nat.one_pos, ⟨rfl, rfl, rfl⟩, fun _ hj => hj, fun _ _ => ⟨rfl, rfl, rfl⟩,
   C9_knot_independence pW oneArr oneArr oneArr oneArr oneArr zeroKnots zeroKnots zeroKnots 1
     zeroScratch zeroScratch 0 Nat.one_pos rfl rfl rfl id (fun _ hj => hj)
     (fun _ _ => ⟨rfl, rfl, rfl⟩)⟩

/-! ### Impulse grids -/

/-- The wrap is injective on the offset window (no aliasing when
`2·M_sp ≤ N`). -/
theorem wrapIdx_inj (N : ℕ) (hNpos : 0 < N) (hNeven : Even N) (M_sp : ℕ)
    (h2M : 2 * M_sp ≤ N) (m : ℤ) (hm0 : 0 ≤ m) (hm1 : m < (N : ℤ)) (l l2 : ℤ)
    (hla : 1 - (M_sp : ℤ) ≤ l) (hlb : l ≤ (M_sp : ℤ))
    (hl2a : 1 - (M_sp : ℤ) ≤ l2) (hl2b : l2 ≤ (M_sp : ℤ))
    (heq : wrapIdx N m l = wrapIdx N m l2) : l = l2 := by
  obtain ⟨r, hr⟩ := hNeven
  simp only [wrapIdx] at heq
  split_ifs at heq <;> omega

/-- The linear index determines the per-axis indices when all are in
range. -/
theorem linIdx_inj (Nx Ny Nz : ℕ) (x y z x2 y2 z2 : ℤ)
    (hx0 : 0 ≤ x) (hx1 : x < (Nx : ℤ)) (hy0 : 0 ≤ y) (hy1 : y < (Ny : ℤ))
    (hz0 : 0 ≤ z) (hz1 : z < (Nz : ℤ))
    (hx20 : 0 ≤ x2) (hx21 : x2 < (Nx : ℤ)) (hy20 : 0 ≤ y2) (hy21 : y2 < (Ny : ℤ))
    (hz20 : 0 ≤ z2) (hz21 : z2 < (Nz : ℤ))
    (heq : linIdx Nx Ny x y z = linIdx Nx Ny x2 y2 z2) :
    x = x2 ∧ y = y2 ∧ z = z2 := by
  unfold linIdx at heq
  have hNx0 : (0 : ℤ) ≤ (Nx : ℤ) := by positivity
  have hNy0 : (0 : ℤ) ≤ (Ny : ℤ) := by positivity
  have hKlin : x - x2 = (Nx : ℤ) * ((y2 - y) + (Ny : ℤ) * (z2 - z)) := by
    linear_combination heq
  have hK0 : (y2 - y) + (Ny : ℤ) * (z2 - z) = 0 := by
    rcases lt_trichotomy ((y2 - y) + (Ny : ℤ) * (z2 - z)) 0 with hK | hK | hK
    · exfalso
      have h1 : (Nx : ℤ) * ((y2 - y) + (Ny : ℤ) * (z2 - z)) ≤ (Nx : ℤ) * (-1) :=
        mul_le_mul_of_nonneg_left (by omega) hNx0
      linarith
    · exact hK
    · exfalso
      have h1 : (Nx : ℤ) * 1 ≤ (Nx : ℤ) * ((y2 - y) + (Ny : ℤ) * (z2 - z)) :=
        mul_le_mul_of_nonneg_left (by omega) hNx0
      linarith
  have hxe : x = x2 := by
    rw [hK0, mul_zero] at hKlin
    omega
  have hK2 : y2 - y = (Ny : ℤ) * (z - z2) := by linear_combination hK0
  have hze : z = z2 := by
    rcases lt_trichotomy (z - z2) 0 with hK | hK | hK
    · exfalso
      have h1 : (Ny : ℤ) * (z - z2) ≤ (Ny : ℤ) * (-1) :=
        mul_le_mul_of_nonneg_left (by omega) hNy0
      linarith
    · omega
    · exfalso
      have h1 : (Ny : ℤ) * 1 ≤ (Ny : ℤ) * (z - z2) :=
        mul_le_mul_of_nonneg_left (by omega) hNy0
      linarith
  have hye : y = y2 := by
    rw [hze, sub_self, mul_zero] at hK2
    omega
  exact ⟨hxe, hye, hze⟩

/-- A knot placed exactly on a lattice angle gets that lattice index. -/
theorem floorIdx_lattice (N : ℕ) (hN : 0 < N) (m : ℤ) :
    floorIdx N ((m : ℝ) * (2 * Real.pi / (N : ℝ))) = m := by
  unfold floorIdx
  have hNr : ((N : ℝ)) ≠ 0 := Nat.cast_ne_zero.mpr (by omega)
  have hpi := Real.pi_ne_zero
  have harg : (N : ℝ) * ((m : ℝ) * (2 * Real.pi / (N : ℝ))) / (2 * Real.pi) = (m : ℝ) := by
    field_simp
  rw [harg, Int.floor_intCast]

/-- A knot placed exactly on a lattice angle has zero sub-cell offset. -/
theorem suboff_lattice (N : ℕ) (hN : 0 < N) (m : ℤ) :
    suboff N ((m : ℝ) * (2 * Real.pi / (N : ℝ))) = 0 := by
  rw [suboff_eq, floorIdx_lattice N hN m]
  ring

/-- The angular coordinate in `[0, 2π)` that maps to grid cell `c` on an
axis of extent `N` under the wrap convention (DC at the half-extent
index). -/
def cellAngle (N : ℕ) (c : ℤ) : ℝ :=
  ((if (N : ℤ) / 2 ≤ c then c - (N : ℤ) / 2 else c + (N : ℤ) / 2 : ℤ) : ℝ)
    * (2 * Real.pi / (N : ℝ))

/-- The lattice index of a cell's angular coordinate. -/
theorem cellAngle_floorIdx (N : ℕ) (hN : 0 < N) (c : ℤ) :
    floorIdx N (cellAngle N c)
      = if (N : ℤ) / 2 ≤ c then c - (N : ℤ) / 2 else c + (N : ℤ) / 2 :=
  floorIdx_lattice N hN _

/-- A cell's angular coordinate has zero sub-cell offset. -/
theorem cellAngle_suboff (N : ℕ) (hN : 0 < N) (c : ℤ) :
    suboff N (cellAngle N c) = 0 :=
  suboff_lattice N hN _

/-- A cell's angular coordinate lies in `[0, 2π)`. -/
theorem cellAngle_range (N : ℕ) (hN : 0 < N) (c : ℤ) (hc0 : 0 ≤ c) (hc1 : c < (N : ℤ)) :
    0 ≤ cellAngle N c ∧ cellAngle N c < 2 * Real.pi := by
  unfold cellAngle
  have hD : (0 : ℝ) < 2 * Real.pi / (N : ℝ) := by positivity
  have hm0 : (0 : ℤ) ≤ (if (N : ℤ) / 2 ≤ c then c - (N : ℤ) / 2 else c + (N : ℤ) / 2) := by
    split_ifs <;> omega
  have hm1 : (if (N : ℤ) / 2 ≤ c then c - (N : ℤ) / 2 else c + (N : ℤ) / 2) < (N : ℤ) := by
    split_ifs <;> omega
  constructor
  · exact mul_nonneg (by exact_mod_cast hm0) (le_of_lt hD)
  · have hNr : ((N : ℝ)) ≠ 0 := Nat.cast_ne_zero.mpr (by omega)
    calc ((if (N : ℤ) / 2 ≤ c then c - (N : ℤ) / 2 else c + (N : ℤ) / 2 : ℤ) : ℝ)
          * (2 * Real.pi / (N : ℝ))
        < (N : ℝ) * (2 * Real.pi / (N : ℝ)) := by
          apply mul_lt_mul_of_pos_right _ hD
          exact_mod_cast hm1
      _ = 2 * Real.pi := by field_simp

/-- The wrap of the lattice index of a cell's angle at offset `0` is the
cell itself. -/
theorem wrapIdx_cellAngle (N : ℕ) (hNpos : 0 < N) (hNeven : Even N) (c : ℤ)
    (hc0 : 0 ≤ c) (hc1 : c < (N : ℤ)) :
    wrapIdx N (if (N : ℤ) / 2 ≤ c then c - (N : ℤ) / 2 else c + (N : ℤ) / 2) 0 = c := by
  obtain ⟨r, hr⟩ := hNeven
  simp only [wrapIdx]
  split_ifs <;> omega

/-- A unit impulse grid: `1` at linear index `i0`, `0` elsewhere. -/
def deltaArr (i0 : ℤ) : Arr := fun j => if j = i0 then 1 else 0

/-- One summand's weight factor (everything except the grid sample) in the
specification's triple-sum form. -/
def convTerm (p : Params) (E_3x E_3y E_3z : Arr) (kx ky kz : ℝ) (l1 l2 l3 : ℤ) : ℝ :=
  let Msp : ℤ := (p.M_sp : ℤ)
  let m1 := floorIdx p.M_rx kx
  let m2 := floorIdx p.M_ry ky
  let m3 := floorIdx p.M_rz kz
  let dx := kx - (m1 : ℝ) * (2 * Real.pi / (p.M_rx : ℝ))
  let dy := ky - (m2 : ℝ) * (2 * Real.pi / (p.M_ry : ℝ))
  let dz := kz - (m3 : ℝ) * (2 * Real.pi / (p.M_rz : ℝ))
  Real.exp (-dx ^ 2 / (4 * p.taux)) * Real.exp (-dy ^ 2 / (4 * p.tauy)) *
    Real.exp (-dz ^ 2 / (4 * p.tauz)) *
    (E_2dummy p.M_rx p.taux kx ^ l1 * E_3x (Msp + l1 - 1)) *
    (E_2dummy p.M_ry p.tauy ky ^ l2 * E_3y (Msp + l2 - 1)) *
    (E_2dummy p.M_rz p.tauz kz ^ l3 * E_3z (Msp + l3 - 1))

/-- `convSum` split into weight factor times grid sample. -/
theorem convSum_eq_term_sum (p : Params) (E_3x E_3y E_3z g : Arr) (kx ky kz : ℝ) :
    convSum p E_3x E_3y E_3z g kx ky kz
      = ∑ l3 ∈ Finset.Icc (1 - (p.M_sp : ℤ)) (p.M_sp : ℤ),
          ∑ l2 ∈ Finset.Icc (1 - (p.M_sp : ℤ)) (p.M_sp : ℤ),
            ∑ l1 ∈ Finset.Icc (1 - (p.M_sp : ℤ)) (p.M_sp : ℤ),
              convTerm p E_3x E_3y E_3z kx ky kz l1 l2 l3 *
                g (linIdx p.M_rx p.M_ry
                    (wrapIdx p.M_rx (floorIdx p.M_rx kx) l1)
                    (wrapIdx p.M_ry (floorIdx p.M_ry ky) l2)
                    (wrapIdx p.M_rz (floorIdx p.M_rz kz) l3)) := rfl

/-- On a unit-impulse grid, the triple sum collapses to the single term
whose wrapped indices hit the impulse cell. -/
theorem convSum_delta (p : Params) (E_3x E_3y E_3z : Arr) (c1 c2 c3 : ℤ)
    (hex : Even p.M_rx) (hey : Even p.M_ry) (hez : Even p.M_rz)
    (hpx : 0 < p.M_rx) (hpy : 0 < p.M_ry) (hpz : 0 < p.M_rz)
    (h2x : 2 * p.M_sp ≤ p.M_rx) (h2y : 2 * p.M_sp ≤ p.M_ry) (h2z : 2 * p.M_sp ≤ p.M_rz)
    (kx ky kz : ℝ)
    (hkx0 : 0 ≤ kx) (hkx1 : kx < 2 * Real.pi)
    (hky0 : 0 ≤ ky) (hky1 : ky < 2 * Real.pi)
    (hkz0 : 0 ≤ kz) (hkz1 : kz < 2 * Real.pi)
    (l1 l2 l3 : ℤ)
    (hl1a : 1 - (p.M_sp : ℤ) ≤ l1) (hl1b : l1 ≤ (p.M_sp : ℤ))
    (hl2a : 1 - (p.M_sp : ℤ) ≤ l2) (hl2b : l2 ≤ (p.M_sp : ℤ))
    (hl3a : 1 - (p.M_sp : ℤ) ≤ l3) (hl3b : l3 ≤ (p.M_sp : ℤ))
    (hw1 : wrapIdx p.M_rx (floorIdx p.M_rx kx) l1 = c1)
    (hw2 : wrapIdx p.M_ry (floorIdx p.M_ry ky) l2 = c2)
    (hw3 : wrapIdx p.M_rz (floorIdx p.M_rz kz) l3 = c3) :
    convSum p E_3x E_3y E_3z (deltaArr (linIdx p.M_rx p.M_ry c1 c2 c3)) kx ky kz
      = convTerm p E_3x E_3y E_3z kx ky kz l1 l2 l3 := by
  have hm1 := floorIdx_bounds p.M_rx hpx kx hkx0 hkx1
  have hm2 := floorIdx_bounds p.M_ry hpy ky hky0 hky1
  have hm3 := floorIdx_bounds p.M_rz hpz kz hkz0 hkz1
  have hc1b : 0 ≤ c1 ∧ c1 < (p.M_rx : ℤ) :=
    hw1 ▸ wrapIdx_bounds p.M_rx hpx hex p.M_sp h2x _ l1 hm1.1 hm1.2 hl1a hl1b
  have hc2b : 0 ≤ c2 ∧ c2 < (p.M_ry : ℤ) :=
    hw2 ▸ wrapIdx_bounds p.M_ry hpy hey p.M_sp h2y _ l2 hm2.1 hm2.2 hl2a hl2b
  have hc3b : 0 ≤ c3 ∧ c3 < (p.M_rz : ℤ) :=
    hw3 ▸ wrapIdx_bounds p.M_rz hpz hez p.M_sp h2z _ l3 hm3.1 hm3.2 hl3a hl3b
  have hkey : ∀ la lb lc : ℤ,
      1 - (p.M_sp : ℤ) ≤ la → la ≤ (p.M_sp : ℤ) →
      1 - (p.M_sp : ℤ) ≤ lb → lb ≤ (p.M_sp : ℤ) →
      1 - (p.M_sp : ℤ) ≤ lc → lc ≤ (p.M_sp : ℤ) →
      linIdx p.M_rx p.M_ry (wrapIdx p.M_rx (floorIdx p.M_rx kx) la)
          (wrapIdx p.M_ry (floorIdx p.M_ry ky) lb)
          (wrapIdx p.M_rz (floorIdx p.M_rz kz) lc)
        = linIdx p.M_rx p.M_ry c1 c2 c3 →
      la = l1 ∧ lb = l2 ∧ lc = l3 := by
    intro la lb lc ha1 ha2 hb1 hb2 hcc1 hcc2 heq
    have hwa := wrapIdx_bounds p.M_rx hpx hex p.M_sp h2x _ la hm1.1 hm1.2 ha1 ha2
    have hwb := wrapIdx_bounds p.M_ry hpy hey p.M_sp h2y _ lb hm2.1 hm2.2 hb1 hb2
    have hwc := wrapIdx_bounds p.M_rz hpz hez p.M_sp h2z _ lc hm3.1 hm3.2 hcc1 hcc2
    obtain ⟨e1, e2, e3⟩ := linIdx_inj p.M_rx p.M_ry p.M_rz _ _ _ c1 c2 c3
      hwa.1 hwa.2 hwb.1 hwb.2 hwc.1 hwc.2 hc1b.1 hc1b.2 hc2b.1 hc2b.2 hc3b.1 hc3b.2 heq
    exact ⟨wrapIdx_inj p.M_rx hpx hex p.M_sp h2x _ hm1.1 hm1.2 la l1 ha1 ha2 hl1a hl1b
        (e1.trans hw1.symm),
      wrapIdx_inj p.M_ry hpy hey p.M_sp h2y _ hm2.1 hm2.2 lb l2 hb1 hb2 hl2a hl2b
        (e2.trans hw2.symm),
      wrapIdx_inj p.M_rz hpz hez p.M_sp h2z _ hm3.1 hm3.2 lc l3 hcc1 hcc2 hl3a hl3b
        (e3.trans hw3.symm)⟩
  rw [convSum_eq_term_sum]
  have hz3 : ∀ b ∈ Finset.Icc (1 - (p.M_sp : ℤ)) (p.M_sp : ℤ), b ≠ l3 →
      (∑ l2' ∈ Finset.Icc (1 - (p.M_sp : ℤ)) (p.M_sp : ℤ),
        ∑ l1' ∈ Finset.Icc (1 - (p.M_sp : ℤ)) (p.M_sp : ℤ),
          convTerm p E_3x E_3y E_3z kx ky kz l1' l2' b *
            deltaArr (linIdx p.M_rx p.M_ry c1 c2 c3)
              (linIdx p.M_rx p.M_ry (wrapIdx p.M_rx (floorIdx p.M_rx kx) l1')
                (wrapIdx p.M_ry (floorIdx p.M_ry ky) l2')
                (wrapIdx p.M_rz (floorIdx p.M_rz kz) b))) = 0 := by
    intro b hb hne
    refine Finset.sum_eq_zero (fun lb hlb => Finset.sum_eq_zero (fun la hla => ?_))
    rw [Finset.mem_Icc] at hb hlb hla
    have hnd : linIdx p.M_rx p.M_ry (wrapIdx p.M_rx (floorIdx p.M_rx kx) la)
        (wrapIdx p.M_ry (floorIdx p.M_ry ky) lb) (wrapIdx p.M_rz (floorIdx p.M_rz kz) b)
        ≠ linIdx p.M_rx p.M_ry c1 c2 c3 :=
      fun heq => hne ((hkey la lb b hla.1 hla.2 hlb.1 hlb.2 hb.1 hb.2 heq).2.2)
    simp only [deltaArr]
    rw [if_neg hnd, mul_zero]
  rw [Finset.sum_eq_single_of_mem l3 (Finset.mem_Icc.mpr ⟨hl3a, hl3b⟩) hz3]
  have hz2 : ∀ b ∈ Finset.Icc (1 - (p.M_sp : ℤ)) (p.M_sp : ℤ), b ≠ l2 →
      (∑ l1' ∈ Finset.Icc (1 - (p.M_sp : ℤ)) (p.M_sp : ℤ),
        convTerm p E_3x E_3y E_3z kx ky kz l1' b l3 *
          deltaArr (linIdx p.M_rx p.M_ry c1 c2 c3)
            (linIdx p.M_rx p.M_ry (wrapIdx p.M_rx (floorIdx p.M_rx kx) l1')
              (wrapIdx p.M_ry (floorIdx p.M_ry ky) b)
              (wrapIdx p.M_rz (floorIdx p.M_rz kz) l3))) = 0 := by
    intro b hb hne
    refine Finset.sum_eq_zero (fun la hla => ?_)
    rw [Finset.mem_Icc] at hb hla
    have hnd : linIdx p.M_rx p.M_ry (wrapIdx p.M_rx (floorIdx p.M_rx kx) la)
        (wrapIdx p.M_ry (floorIdx p.M_ry ky) b) (wrapIdx p.M_rz (floorIdx p.M_rz kz) l3)
        ≠ linIdx p.M_rx p.M_ry c1 c2 c3 :=
      fun heq => hne ((hkey la b l3 hla.1 hla.2 hb.1 hb.2 hl3a hl3b heq).2.1)
    simp only [deltaArr]
    rw [if_neg hnd, mul_zero]
  rw [Finset.sum_eq_single_of_mem l2 (Finset.mem_Icc.mpr ⟨hl2a, hl2b⟩) hz2]
  have hz1 : ∀ b ∈ Finset.Icc (1 - (p.M_sp : ℤ)) (p.M_sp : ℤ), b ≠ l1 →
      convTerm p E_3x E_3y E_3z kx ky kz b l2 l3 *
        deltaArr (linIdx p.M_rx p.M_ry c1 c2 c3)
          (linIdx p.M_rx p.M_ry (wrapIdx p.M_rx (floorIdx p.M_rx kx) b)
            (wrapIdx p.M_ry (floorIdx p.M_ry ky) l2)
            (wrapIdx p.M_rz (floorIdx p.M_rz kz) l3)) = 0 := by
    intro b hb hne
    rw [Finset.mem_Icc] at hb
    have hnd : linIdx p.M_rx p.M_ry (wrapIdx p.M_rx (floorIdx p.M_rx kx) b)
        (wrapIdx p.M_ry (floorIdx p.M_ry ky) l2) (wrapIdx p.M_rz (floorIdx p.M_rz kz) l3)
        ≠ linIdx p.M_rx p.M_ry c1 c2 c3 :=
      fun heq => hne ((hkey b l2 l3 hb.1 hb.2 hl2a hl2b hl3a hl3b heq).1)
    simp only [deltaArr]
    rw [if_neg hnd, mul_zero]
  rw [Finset.sum_eq_single_of_mem l1 (Finset.mem_Icc.mpr ⟨hl1a, hl1b⟩) hz1]
  simp only [deltaArr]
  rw [hw1, hw2, hw3, if_pos rfl, mul_one]

/-- On a unit-impulse grid, a knot whose offset window misses the impulse
cell on some axis contributes exactly zero. -/
theorem convSum_delta_zero (p : Params) (E_3x E_3y E_3z : Arr) (c1 c2 c3 : ℤ)
    (hex : Even p.M_rx) (hey : Even p.M_ry) (hez : Even p.M_rz)
    (hpx : 0 < p.M_rx) (hpy : 0 < p.M_ry) (hpz : 0 < p.M_rz)
    (h2x : 2 * p.M_sp ≤ p.M_rx) (h2y : 2 * p.M_sp ≤ p.M_ry) (h2z : 2 * p.M_sp ≤ p.M_rz)
    (kx ky kz : ℝ)
    (hkx0 : 0 ≤ kx) (hkx1 : kx < 2 * Real.pi)
    (hky0 : 0 ≤ ky) (hky1 : ky < 2 * Real.pi)
    (hkz0 : 0 ≤ kz) (hkz1 : kz < 2 * Real.pi)
    (hc1 : 0 ≤ c1) (hc1' : c1 < (p.M_rx : ℤ))
    (hc2 : 0 ≤ c2) (hc2' : c2 < (p.M_ry : ℤ))
    (hc3 : 0 ≤ c3) (hc3' : c3 < (p.M_rz : ℤ))
    (hmiss :
      (∀ l : ℤ, 1 - (p.M_sp : ℤ) ≤ l → l ≤ (p.M_sp : ℤ) →
        wrapIdx p.M_rx (floorIdx p.M_rx kx) l ≠ c1) ∨
      (∀ l : ℤ, 1 - (p.M_sp : ℤ) ≤ l → l ≤ (p.M_sp : ℤ) →
        wrapIdx p.M_ry (floorIdx p.M_ry ky) l ≠ c2) ∨
      (∀ l : ℤ, 1 - (p.M_sp : ℤ) ≤ l → l ≤ (p.M_sp : ℤ) →
        wrapIdx p.M_rz (floorIdx p.M_rz kz) l ≠ c3)) :
    convSum p E_3x E_3y E_3z (deltaArr (linIdx p.M_rx p.M_ry c1 c2 c3)) kx ky kz = 0 := by
  have hm1 := floorIdx_bounds p.M_rx hpx kx hkx0 hkx1
  have hm2 := floorIdx_bounds p.M_ry hpy ky hky0 hky1
  have hm3 := floorIdx_bounds p.M_rz hpz kz hkz0 hkz1
  rw [convSum_eq_term_sum]
  refine Finset.sum_eq_zero (fun lc hlc => Finset.sum_eq_zero (fun lb hlb =>
    Finset.sum_eq_zero (fun la hla => ?_)))
  rw [Finset.mem_Icc] at hlc hlb hla
  have hwa := wrapIdx_bounds p.M_rx hpx hex p.M_sp h2x _ la hm1.1 hm1.2 hla.1 hla.2
  have hwb := wrapIdx_bounds p.M_ry hpy hey p.M_sp h2y _ lb hm2.1 hm2.2 hlb.1 hlb.2
  have hwc := wrapIdx_bounds p.M_rz hpz hez p.M_sp h2z _ lc hm3.1 hm3.2 hlc.1 hlc.2
  have hnd : linIdx p.M_rx p.M_ry (wrapIdx p.M_rx (floorIdx p.M_rx kx) la)
      (wrapIdx p.M_ry (floorIdx p.M_ry ky) lb) (wrapIdx p.M_rz (floorIdx p.M_rz kz) lc)
      ≠ linIdx p.M_rx p.M_ry c1 c2 c3 := by
    intro heq
    obtain ⟨e1, e2, e3⟩ := linIdx_inj p.M_rx p.M_ry p.M_rz _ _ _ c1 c2 c3
      hwa.1 hwa.2 hwb.1 hwb.2 hwc.1 hwc.2 hc1 hc1' hc2 hc2' hc3 hc3' heq
    rcases hmiss with hm | hm | hm
    · exact hm la hla.1 hla.2 e1
    · exact hm lb hlb.1 hlb.2 e2
    · exact hm lc hlc.1 hlc.2 e3
  simp only [deltaArr]
  rw [if_neg hnd, mul_zero]

/-- A run with a single knot computes that knot's pure triple sum. -/
theorem outArray_single_knot (p : Params) (E_3x E_3y E_3z gr gi : Arr) (st0 : Scratch)
    (kx ky kz : ℝ) :
    outArrayR p E_3x E_3y E_3z gr gi (singleKnot kx ky kz) 1 st0 0
        = convSum p E_3x E_3y E_3z gr kx ky kz ∧
      outArrayI p E_3x E_3y E_3z gr gi (singleKnot kx ky kz) 1 st0 0
        = convSum p E_3x E_3y E_3z gi kx ky kz := by
  constructor
  · rw [outArrayR_eq _ _ _ _ _ _ _ _ _ _ (by omega : (0 : ℕ) < 1)]
    rfl
  · rw [outArrayI_eq _ _ _ _ _ _ _ _ _ _ (by omega : (0 : ℕ) < 1)]
    rfl

/-- A 4×4×4 instance with `M_sp = 2` and unit spreading widths. -/
def p4 : Params := ⟨2, 1, 1, 1, 4, 4, 4⟩

/-- C7: for a unit impulse at cell `(c1,c2,c3)` and a single knot placed
exactly at that cell's angular coordinate (zero sub-cell offset on every
axis), the output equals the product of the three central kernel-table
taps, for arbitrary spreading widths, with zero imaginary part. -/
theorem C7_impulse_central_tap (p : Params) (E_3x E_3y E_3z : Arr) (st0 : Scratch)
    (c1 c2 c3 : ℤ)
    (hex : Even p.M_rx) (hey : Even p.M_ry) (hez : Even p.M_rz)
    (hpx : 0 < p.M_rx) (hpy : 0 < p.M_ry) (hpz : 0 < p.M_rz)
    (hM : 1 ≤ p.M_sp)
    (h2x : 2 * p.M_sp ≤ p.M_rx) (h2y : 2 * p.M_sp ≤ p.M_ry) (h2z : 2 * p.M_sp ≤ p.M_rz)
    (hc1 : 0 ≤ c1) (hc1' : c1 < (p.M_rx : ℤ))
    (hc2 : 0 ≤ c2) (hc2' : c2 < (p.M_ry : ℤ))
    (hc3 : 0 ≤ c3) (hc3' : c3 < (p.M_rz : ℤ)) :
    outArrayR p E_3x E_3y E_3z (deltaArr (linIdx p.M_rx p.M_ry c1 c2 c3)) zeroArr
        (singleKnot (cellAngle p.M_rx c1) (cellAngle p.M_ry c2) (cellAngle p.M_rz c3))
        1 st0 0
      = E_3x ((p.M_sp : ℤ) - 1) * E_3y ((p.M_sp : ℤ) - 1) * E_3z ((p.M_sp : ℤ) - 1) ∧
    outArrayI p E_3x E_3y E_3z (deltaArr (linIdx p.M_rx p.M_ry c1 c2 c3)) zeroArr
        (singleKnot (cellAngle p.M_rx c1) (cellAngle p.M_ry c2) (cellAngle p.M_rz c3))
        1 st0 0
      = 0 := by
  have hr1 := cellAngle_range p.M_rx hpx c1 hc1 hc1'
  have hr2 := cellAngle_range p.M_ry hpy c2 hc2 hc2'
  have hr3 := cellAngle_range p.M_rz hpz c3 hc3 hc3'
  have hw1 : wrapIdx p.M_rx (floorIdx p.M_rx (cellAngle p.M_rx c1)) 0 = c1 := by
    rw [cellAngle_floorIdx p.M_rx hpx c1]
    exact wrapIdx_cellAngle p.M_rx hpx hex c1 hc1 hc1'
  have hw2 : wrapIdx p.M_ry (floorIdx p.M_ry (cellAngle p.M_ry c2)) 0 = c2 := by
    rw [cellAngle_floorIdx p.M_ry hpy c2]
    exact wrapIdx_cellAngle p.M_ry hpy hey c2 hc2 hc2'
  have hw3 : wrapIdx p.M_rz (floorIdx p.M_rz (cellAngle p.M_rz c3)) 0 = c3 := by
    rw [cellAngle_floorIdx p.M_rz hpz c3]
    exact wrapIdx_cellAngle p.M_rz hpz hez c3 hc3 hc3'
  have h0a : 1 - (p.M_sp : ℤ) ≤ 0 := by omega
  have h0b : (0 : ℤ) ≤ (p.M_sp : ℤ) := by omega
  have hsingle := outArray_single_knot p E_3x E_3y E_3z
    (deltaArr (linIdx p.M_rx p.M_ry c1 c2 c3)) zeroArr st0
    (cellAngle p.M_rx c1) (cellAngle p.M_ry c2) (cellAngle p.M_rz c3)
  constructor
  · rw [hsingle.1,
      convSum_delta p E_3x E_3y E_3z c1 c2 c3 hex hey hez hpx hpy hpz h2x h2y h2z
        _ _ _ hr1.1 hr1.2 hr2.1 hr2.2 hr3.1 hr3.2 0 0 0 h0a h0b h0a h0b h0a h0b hw1 hw2 hw3]
    simp only [convTerm]
    have hd1 : cellAngle p.M_rx c1
        - (floorIdx p.M_rx (cellAngle p.M_rx c1) : ℝ) * (2 * Real.pi / (p.M_rx : ℝ)) = 0 := by
      rw [← suboff_eq]
      exact cellAngle_suboff p.M_rx hpx c1
    have hd2 : cellAngle p.M_ry c2
        - (floorIdx p.M_ry (cellAngle p.M_ry c2) : ℝ) * (2 * Real.pi / (p.M_ry : ℝ)) = 0 := by
      rw [← suboff_eq]
      exact cellAngle_suboff p.M_ry hpy c2
    have hd3 : cellAngle p.M_rz c3
        - (floorIdx p.M_rz (cellAngle p.M_rz c3) : ℝ) * (2 * Real.pi / (p.M_rz : ℝ)) = 0 := by
      rw [← suboff_eq]
      exact cellAngle_suboff p.M_rz hpz c3
    rw [hd1, hd2, hd3]
    norm_num
  · rw [hsingle.2, convSum_zero]

/-- Witness for C7: the specification's concrete `4×4×4` scenario with the
impulse at cell `(2,2,2)`, `M_sp = 2`, unit spreading widths. -/
theorem C7_witness :
    (Even p4.M_rx ∧ Even p4.M_ry ∧ Even p4.M_rz ∧ 0 < p4.M_rx ∧ 0 < p4.M_ry ∧ 0 < p4.M_rz ∧
      1 ≤ p4.M_sp ∧ 2 * p4.M_sp ≤ p4.M_rx ∧ 2 * p4.M_sp ≤ p4.M_ry ∧ 2 * p4.M_sp ≤ p4.M_rz ∧
      (0 : ℤ) ≤ 2 ∧ (2 : ℤ) < (p4.M_rx : ℤ) ∧ (2 : ℤ) < (p4.M_ry : ℤ) ∧
      (2 : ℤ) < (p4.M_rz : ℤ)) ∧
    (outArrayR p4 oneArr oneArr oneArr (deltaArr (linIdx p4.M_rx p4.M_ry 2 2 2)) zeroArr
        (singleKnot (cellAngle p4.M_rx 2) (cellAngle p4.M_ry 2) (cellAngle p4.M_rz 2))
        1 zeroScratch 0
      = oneArr ((p4.M_sp : ℤ) - 1) * oneArr ((p4.M_sp : ℤ) - 1) * oneArr ((p4.M_sp : ℤ) - 1) ∧
    outArrayI p4 oneArr oneArr oneArr (deltaArr (linIdx p4.M_rx p4.M_ry 2 2 2)) zeroArr
        (singleKnot (cellAngle p4.M_rx 2) (cellAngle p4.M_ry 2) (cellAngle p4.M_rz 2))
        1 zeroScratch 0
      = 0) :=
  ⟨⟨by decide, by decide, by decide, by decide, by decide, by decide, by decide, by decide,
    by decide, by decide, by decide, by decide, by decide, by decide⟩,
   C7_impulse_central_tap p4 oneArr oneArr oneArr zeroScratch 2 2 2 (by decide) (by decide)
     (by decide) (by decide) (by decide) (by decide) (by decide) (by decide) (by decide)
     (by decide) (by decide) (by decide) (by decide) (by decide) (by decide) (by decide)⟩

/-! ### Gaussian kernel tables -/

/-- Modelled from the spec: a `SeparableKernelTable` holds "the
knot-independent portion of the Gaussian kernel evaluated at
lattice-spacing multiples of the offset", i.e. `exp(-(l·Δ)²/(4τ))` for
offset `l` at slot `M_sp + l - 1`, with `Δ = 2π/N`.  (The `E_3` tables are
precomputed by the MATLAB caller, outside this repository's C source.) -/
def specTable (N : ℕ) (tau : ℝ) (M_sp : ℕ) : Arr :=
  fun s => Real.exp (-(((s - ((M_sp : ℤ) - 1) : ℤ) : ℝ) * (2 * Real.pi / (N : ℝ))) ^ 2
    / (4 * tau))

/-- With the Gaussian kernel tables, one summand's weight is exactly the
shifted Gaussian evaluated at the knot's distance from the read cell. -/
theorem convTerm_spec (p : Params)
    (hpx : 0 < p.M_rx) (hpy : 0 < p.M_ry) (hpz : 0 < p.M_rz)
    (htx : p.taux ≠ 0) (hty : p.tauy ≠ 0) (htz : p.tauz ≠ 0)
    (kx ky kz : ℝ) (l1 l2 l3 : ℤ) :
    convTerm p (specTable p.M_rx p.taux p.M_sp) (specTable p.M_ry p.tauy p.M_sp)
        (specTable p.M_rz p.tauz p.M_sp) kx ky kz l1 l2 l3
      = Real.exp (-(suboff p.M_rx kx - l1 * (2 * Real.pi / (p.M_rx : ℝ))) ^ 2
            / (4 * p.taux)) *
        Real.exp (-(suboff p.M_ry ky - l2 * (2 * Real.pi / (p.M_ry : ℝ))) ^ 2
            / (4 * p.tauy)) *
        Real.exp (-(suboff p.M_rz kz - l3 * (2 * Real.pi / (p.M_rz : ℝ))) ^ 2
            / (4 * p.tauz)) := by
  simp only [convTerm, specTable]
  have hslot1 : (p.M_sp : ℤ) + l1 - 1 - ((p.M_sp : ℤ) - 1) = l1 := by ring
  have hslot2 : (p.M_sp : ℤ) + l2 - 1 - ((p.M_sp : ℤ) - 1) = l2 := by ring
  have hslot3 : (p.M_sp : ℤ) + l3 - 1 - ((p.M_sp : ℤ) - 1) = l3 := by ring
  rw [hslot1, hslot2, hslot3, gauss_shift p.M_rx hpx p.taux htx kx l1,
    gauss_shift p.M_ry hpy p.tauy hty ky l2, gauss_shift p.M_rz hpz p.tauz htz kz l3,
    E_1_eq, E_1_eq, E_1_eq, ← suboff_eq, ← suboff_eq, ← suboff_eq]
  ring

/-- The product of three Gaussian envelope factors is antitone in the
componentwise absolute distances. -/
theorem gaussProduct_mono (tx ty tz : ℝ) (htx : 0 < tx) (hty : 0 < ty) (htz : 0 < tz)
    (a b c a2 b2 c2 : ℝ) (ha : |a| ≤ |a2|) (hb : |b| ≤ |b2|) (hc : |c| ≤ |c2|) :
    Real.exp (-a2 ^ 2 / (4 * tx)) * Real.exp (-b2 ^ 2 / (4 * ty)) *
        Real.exp (-c2 ^ 2 / (4 * tz))
      ≤ Real.exp (-a ^ 2 / (4 * tx)) * Real.exp (-b ^ 2 / (4 * ty)) *
          Real.exp (-c ^ 2 / (4 * tz)) := by
  have h1 : a ^ 2 ≤ a2 ^ 2 := by
    rw [← sq_abs a, ← sq_abs a2]
    exact pow_le_pow_left₀ (abs_nonneg _) ha 2
  have h2 : b ^ 2 ≤ b2 ^ 2 := by
    rw [← sq_abs b, ← sq_abs b2]
    exact pow_le_pow_left₀ (abs_nonneg _) hb 2
  have h3 : c ^ 2 ≤ c2 ^ 2 := by
    rw [← sq_abs c, ← sq_abs c2]
    exact pow_le_pow_left₀ (abs_nonneg _) hc 2
  have e1 : Real.exp (-a2 ^ 2 / (4 * tx)) ≤ Real.exp (-a ^ 2 / (4 * tx)) := by
    apply Real.exp_le_exp.mpr
    rw [neg_div, neg_div]
    exact neg_le_neg ((div_le_div_iff_of_pos_right (by positivity)).mpr h1)
  have e2 : Real.exp (-b2 ^ 2 / (4 * ty)) ≤ Real.exp (-b ^ 2 / (4 * ty)) := by
    apply Real.exp_le_exp.mpr
    rw [neg_div, neg_div]
    exact neg_le_neg ((div_le_div_iff_of_pos_right (by positivity)).mpr h2)
  have e3 : Real.exp (-c2 ^ 2 / (4 * tz)) ≤ Real.exp (-c ^ 2 / (4 * tz)) := by
    apply Real.exp_le_exp.mpr
    rw [neg_div, neg_div]
    exact neg_le_neg ((div_le_div_iff_of_pos_right (by positivity)).mpr h3)
  exact mul_le_mul (mul_le_mul e1 e2 (le_of_lt (Real.exp_pos _)) (le_of_lt (Real.exp_pos _)))
    e3 (le_of_lt (Real.exp_pos _)) (by positivity)

/-- Closed form of a single-knot run on an impulse grid with Gaussian
kernel tables, when the offset window hits the impulse cell. -/
theorem outR_delta_spec (p : Params) (st0 : Scratch) (c1 c2 c3 : ℤ)
    (hex : Even p.M_rx) (hey : Even p.M_ry) (hez : Even p.M_rz)
    (hpx : 0 < p.M_rx) (hpy : 0 < p.M_ry) (hpz : 0 < p.M_rz)
    (htx : p.taux ≠ 0) (hty : p.tauy ≠ 0) (htz : p.tauz ≠ 0)
    (h2x : 2 * p.M_sp ≤ p.M_rx) (h2y : 2 * p.M_sp ≤ p.M_ry) (h2z : 2 * p.M_sp ≤ p.M_rz)
    (kx ky kz : ℝ)
    (hkx0 : 0 ≤ kx) (hkx1 : kx < 2 * Real.pi)
    (hky0 : 0 ≤ ky) (hky1 : ky < 2 * Real.pi)
    (hkz0 : 0 ≤ kz) (hkz1 : kz < 2 * Real.pi)
    (l1 l2 l3 : ℤ)
    (hl1a : 1 - (p.M_sp : ℤ) ≤ l1) (hl1b : l1 ≤ (p.M_sp : ℤ))
    (hl2a : 1 - (p.M_sp : ℤ) ≤ l2) (hl2b : l2 ≤ (p.M_sp : ℤ))
    (hl3a : 1 - (p.M_sp : ℤ) ≤ l3) (hl3b : l3 ≤ (p.M_sp : ℤ))
    (hw1 : wrapIdx p.M_rx (floorIdx p.M_rx kx) l1 = c1)
    (hw2 : wrapIdx p.M_ry (floorIdx p.M_ry ky) l2 = c2)
    (hw3 : wrapIdx p.M_rz (floorIdx p.M_rz kz) l3 = c3) :
    outArrayR p (specTable p.M_rx p.taux p.M_sp) (specTable p.M_ry p.tauy p.M_sp)
        (specTable p.M_rz p.tauz p.M_sp) (deltaArr (linIdx p.M_rx p.M_ry c1 c2 c3))
        zeroArr (singleKnot kx ky kz) 1 st0 0
      = Real.exp (-(suboff p.M_rx kx - l1 * (2 * Real.pi / (p.M_rx : ℝ))) ^ 2
            / (4 * p.taux)) *
        Real.exp (-(suboff p.M_ry ky - l2 * (2 * Real.pi / (p.M_ry : ℝ))) ^ 2
            / (4 * p.tauy)) *
        Real.exp (-(suboff p.M_rz kz - l3 * (2 * Real.pi / (p.M_rz : ℝ))) ^ 2
            / (4 * p.tauz)) := by
  rw [(outArray_single_knot p _ _ _ _ _ st0 kx ky kz).1,
    convSum_delta p _ _ _ c1 c2 c3 hex hey hez hpx hpy hpz h2x h2y h2z
      kx ky kz hkx0 hkx1 hky0 hky1 hkz0 hkz1 l1 l2 l3 hl1a hl1b hl2a hl2b hl3a hl3b
      hw1 hw2 hw3,
    convTerm_spec p hpx hpy hpz htx hty htz kx ky kz l1 l2 l3]

/-- C8: on a unit-impulse grid with the Gaussian kernel tables, a knot
whose window hits the impulse at offsets `(l1,l2,l3)` computes exactly the
Gaussian envelope of its per-axis distances to the impulse; any knot at
componentwise larger absolute distances computes no more; and a knot whose
window misses the impulse cell on some axis computes exactly zero. -/
theorem C8_gaussian_decay (p : Params) (st0 : Scratch) (c1 c2 c3 : ℤ)
    (hex : Even p.M_rx) (hey : Even p.M_ry) (hez : Even p.M_rz)
    (hpx : 0 < p.M_rx) (hpy : 0 < p.M_ry) (hpz : 0 < p.M_rz)
    (htx : 0 < p.taux) (hty : 0 < p.tauy) (htz : 0 < p.tauz)
    (h2x : 2 * p.M_sp ≤ p.M_rx) (h2y : 2 * p.M_sp ≤ p.M_ry) (h2z : 2 * p.M_sp ≤ p.M_rz)
    (hc1 : 0 ≤ c1) (hc1' : c1 < (p.M_rx : ℤ))
    (hc2 : 0 ≤ c2) (hc2' : c2 < (p.M_ry : ℤ))
    (hc3 : 0 ≤ c3) (hc3' : c3 < (p.M_rz : ℤ))
    (kx ky kz : ℝ)
    (hkx0 : 0 ≤ kx) (hkx1 : kx < 2 * Real.pi)
    (hky0 : 0 ≤ ky) (hky1 : ky < 2 * Real.pi)
    (hkz0 : 0 ≤ kz) (hkz1 : kz < 2 * Real.pi)
    (l1 l2 l3 : ℤ)
    (hl1a : 1 - (p.M_sp : ℤ) ≤ l1) (hl1b : l1 ≤ (p.M_sp : ℤ))
    (hl2a : 1 - (p.M_sp : ℤ) ≤ l2) (hl2b : l2 ≤ (p.M_sp : ℤ))
    (hl3a : 1 - (p.M_sp : ℤ) ≤ l3) (hl3b : l3 ≤ (p.M_sp : ℤ))
    (hw1 : wrapIdx p.M_rx (floorIdx p.M_rx kx) l1 = c1)
    (hw2 : wrapIdx p.M_ry (floorIdx p.M_ry ky) l2 = c2)
    (hw3 : wrapIdx p.M_rz (floorIdx p.M_rz kz) l3 = c3) :
    outArrayR p (specTable p.M_rx p.taux p.M_sp) (specTable p.M_ry p.tauy p.M_sp)
        (specTable p.M_rz p.tauz p.M_sp) (deltaArr (linIdx p.M_rx p.M_ry c1 c2 c3))
        zeroArr (singleKnot kx ky kz) 1 st0 0
      = Real.exp (-(suboff p.M_rx kx - l1 * (2 * Real.pi / (p.M_rx : ℝ))) ^ 2
            / (4 * p.taux)) *
        Real.exp (-(suboff p.M_ry ky - l2 * (2 * Real.pi / (p.M_ry : ℝ))) ^ 2
            / (4 * p.tauy)) *
        Real.exp (-(suboff p.M_rz kz - l3 * (2 * Real.pi / (p.M_rz : ℝ))) ^ 2
            / (4 * p.tauz)) ∧
    (∀ kx2 ky2 kz2 : ℝ, 0 ≤ kx2 → kx2 < 2 * Real.pi → 0 ≤ ky2 → ky2 < 2 * Real.pi →
      0 ≤ kz2 → kz2 < 2 * Real.pi → ∀ l12 l22 l32 : ℤ,
      1 - (p.M_sp : ℤ) ≤ l12 → l12 ≤ (p.M_sp : ℤ) →
      1 - (p.M_sp : ℤ) ≤ l22 → l22 ≤ (p.M_sp : ℤ) →
      1 - (p.M_sp : ℤ) ≤ l32 → l32 ≤ (p.M_sp : ℤ) →
      wrapIdx p.M_rx (floorIdx p.M_rx kx2) l12 = c1 →
      wrapIdx p.M_ry (floorIdx p.M_ry ky2) l22 = c2 →
      wrapIdx p.M_rz (floorIdx p.M_rz kz2) l32 = c3 →
      |suboff p.M_rx kx - l1 * (2 * Real.pi / (p.M_rx : ℝ))|
        ≤ |suboff p.M_rx kx2 - l12 * (2 * Real.pi / (p.M_rx : ℝ))| →
      |suboff p.M_ry ky - l2 * (2 * Real.pi / (p.M_ry : ℝ))|
        ≤ |suboff p.M_ry ky2 - l22 * (2 * Real.pi / (p.M_ry : ℝ))| →
      |suboff p.M_rz kz - l3 * (2 * Real.pi / (p.M_rz : ℝ))|
        ≤ |suboff p.M_rz kz2 - l32 * (2 * Real.pi / (p.M_rz : ℝ))| →
      outArrayR p (specTable p.M_rx p.taux p.M_sp) (specTable p.M_ry p.tauy p.M_sp)
          (specTable p.M_rz p.tauz p.M_sp) (deltaArr (linIdx p.M_rx p.M_ry c1 c2 c3))
          zeroArr (singleKnot kx2 ky2 kz2) 1 st0 0
        ≤ outArrayR p (specTable p.M_rx p.taux p.M_sp) (specTable p.M_ry p.tauy p.M_sp)
            (specTable p.M_rz p.tauz p.M_sp) (deltaArr (linIdx p.M_rx p.M_ry c1 c2 c3))
            zeroArr (singleKnot kx ky kz) 1 st0 0) ∧
    (∀ kx2 ky2 kz2 : ℝ, 0 ≤ kx2 → kx2 < 2 * Real.pi → 0 ≤ ky2 → ky2 < 2 * Real.pi →
      0 ≤ kz2 → kz2 < 2 * Real.pi →
      ((∀ l : ℤ, 1 - (p.M_sp : ℤ) ≤ l → l ≤ (p.M_sp : ℤ) →
          wrapIdx p.M_rx (floorIdx p.M_rx kx2) l ≠ c1) ∨
       (∀ l : ℤ, 1 - (p.M_sp : ℤ) ≤ l → l ≤ (p.M_sp : ℤ) →
          wrapIdx p.M_ry (floorIdx p.M_ry ky2) l ≠ c2) ∨
       (∀ l : ℤ, 1 - (p.M_sp : ℤ) ≤ l → l ≤ (p.M_sp : ℤ) →
          wrapIdx p.M_rz (floorIdx p.M_rz kz2) l ≠ c3)) →
      outArrayR p (specTable p.M_rx p.taux p.M_sp) (specTable p.M_ry p.tauy p.M_sp)
          (specTable p.M_rz p.tauz p.M_sp) (deltaArr (linIdx p.M_rx p.M_ry c1 c2 c3))
          zeroArr (singleKnot kx2 ky2 kz2) 1 st0 0 = 0 ∧
        outArrayI p (specTable p.M_rx p.taux p.M_sp) (specTable p.M_ry p.tauy p.M_sp)
          (specTable p.M_rz p.tauz p.M_sp) (deltaArr (linIdx p.M_rx p.M_ry c1 c2 c3))
          zeroArr (singleKnot kx2 ky2 kz2) 1 st0 0 = 0) := by
  have htx' : p.taux ≠ 0 := ne_of_gt htx
  have hty' : p.tauy ≠ 0 := ne_of_gt hty
  have htz' : p.tauz ≠ 0 := ne_of_gt htz
  refine ⟨outR_delta_spec p st0 c1 c2 c3 hex hey hez hpx hpy hpz htx' hty' htz'
      h2x h2y h2z kx ky kz hkx0 hkx1 hky0 hky1 hkz0 hkz1 l1 l2 l3
      hl1a hl1b hl2a hl2b hl3a hl3b hw1 hw2 hw3, ?_, ?_⟩
  · intro kx2 ky2 kz2 ha0 ha1 hb0 hb1 hcc0 hcc1 l12 l22 l32
      h12a h12b h22a h22b h32a h32b hw12 hw22 hw32 hd1 hd2 hd3
    rw [outR_delta_spec p st0 c1 c2 c3 hex hey hez hpx hpy hpz htx' hty' htz'
        h2x h2y h2z kx2 ky2 kz2 ha0 ha1 hb0 hb1 hcc0 hcc1 l12 l22 l32
        h12a h12b h22a h22b h32a h32b hw12 hw22 hw32,
      outR_delta_spec p st0 c1 c2 c3 hex hey hez hpx hpy hpz htx' hty' htz'
        h2x h2y h2z kx ky kz hkx0 hkx1 hky0 hky1 hkz0 hkz1 l1 l2 l3
        hl1a hl1b hl2a hl2b hl3a hl3b hw1 hw2 hw3]
    exact gaussProduct_mono p.taux p.tauy p.tauz htx hty htz _ _ _ _ _ _ hd1 hd2 hd3
  · intro kx2 ky2 kz2 ha0 ha1 hb0 hb1 hcc0 hcc1 hmiss
    constructor
    · rw [(outArray_single_knot p _ _ _ _ _ st0 kx2 ky2 kz2).1,
        convSum_delta_zero p _ _ _ c1 c2 c3 hex hey hez hpx hpy hpz h2x h2y h2z
          kx2 ky2 kz2 ha0 ha1 hb0 hb1 hcc0 hcc1 hc1 hc1' hc2 hc2' hc3 hc3' hmiss]
    · rw [(outArray_single_knot p _ _ _ _ _ st0 kx2 ky2 kz2).2, convSum_zero]

/-- Witness for C8: the `4×4×4` instance, impulse at `(2,2,2)`, knot at
that cell's angle, hitting the impulse at offsets `(0,0,0)`. -/
theorem C8_witness :
    (Even p4.M_rx ∧ 0 < p4.M_rx ∧ 0 < p4.taux ∧ 2 * p4.M_sp ≤ p4.M_rx ∧
      (0 : ℤ) ≤ 2 ∧ (2 : ℤ) < (p4.M_rx : ℤ) ∧
      0 ≤ cellAngle p4.M_rx 2 ∧ cellAngle p4.M_rx 2 < 2 * Real.pi ∧
      1 - (p4.M_sp : ℤ) ≤ 0 ∧ (0 : ℤ) ≤ (p4.M_sp : ℤ) ∧
      wrapIdx p4.M_rx (floorIdx p4.M_rx (cellAngle p4.M_rx 2)) 0 = 2) ∧
    (outArrayR p4 (specTable p4.M_rx p4.taux p4.M_sp) (specTable p4.M_ry p4.tauy p4.M_sp)
        (specTable p4.M_rz p4.tauz p4.M_sp) (deltaArr (linIdx p4.M_rx p4.M_ry 2 2 2))
        zeroArr (singleKnot (cellAngle p4.M_rx 2) (cellAngle p4.M_ry 2) (cellAngle p4.M_rz 2))
        1 zeroScratch 0
      = Real.exp (-(suboff p4.M_rx (cellAngle p4.M_rx 2)
            - (0 : ℤ) * (2 * Real.pi / (p4.M_rx : ℝ))) ^ 2 / (4 * p4.taux)) *
        Real.exp (-(suboff p4.M_ry (cellAngle p4.M_ry 2)
            - (0 : ℤ) * (2 * Real.pi / (p4.M_ry : ℝ))) ^ 2 / (4 * p4.tauy)) *
        Real.exp (-(suboff p4.M_rz (cellAngle p4.M_rz 2)
            - (0 : ℤ) * (2 * Real.pi / (p4.M_rz : ℝ))) ^ 2 / (4 * p4.tauz)) ∧
    (∀ kx2 ky2 kz2 : ℝ, 0 ≤ kx2 → kx2 < 2 * Real.pi → 0 ≤ ky2 → ky2 < 2 * Real.pi →
      0 ≤ kz2 → kz2 < 2 * Real.pi → ∀ l12 l22 l32 : ℤ,
      1 - (p4.M_sp : ℤ) ≤ l12 → l12 ≤ (p4.M_sp : ℤ) →
      1 - (p4.M_sp : ℤ) ≤ l22 → l22 ≤ (p4.M_sp : ℤ) →
      1 - (p4.M_sp : ℤ) ≤ l32 → l32 ≤ (p4.M_sp : ℤ) →
      wrapIdx p4.M_rx (floorIdx p4.M_rx kx2) l12 = 2 →
      wrapIdx p4.M_ry (floorIdx p4.M_ry ky2) l22 = 2 →
      wrapIdx p4.M_rz (floorIdx p4.M_rz kz2) l32 = 2 →
      |suboff p4.M_rx (cellAngle p4.M_rx 2) - (0 : ℤ) * (2 * Real.pi / (p4.M_rx : ℝ))|
        ≤ |suboff p4.M_rx kx2 - l12 * (2 * Real.pi / (p4.M_rx : ℝ))| →
      |suboff p4.M_ry (cellAngle p4.M_ry 2) - (0 : ℤ) * (2 * Real.pi / (p4.M_ry : ℝ))|
        ≤ |suboff p4.M_ry ky2 - l22 * (2 * Real.pi / (p4.M_ry : ℝ))| →
      |suboff p4.M_rz (cellAngle p4.M_rz 2) - (0 : ℤ) * (2 * Real.pi / (p4.M_rz : ℝ))|
        ≤ |suboff p4.M_rz kz2 - l32 * (2 * Real.pi / (p4.M_rz : ℝ))| →
      outArrayR p4 (specTable p4.M_rx p4.taux p4.M_sp) (specTable p4.M_ry p4.tauy p4.M_sp)
          (specTable p4.M_rz p4.tauz p4.M_sp) (deltaArr (linIdx p4.M_rx p4.M_ry 2 2 2))
          zeroArr (singleKnot kx2 ky2 kz2) 1 zeroScratch 0
        ≤ outArrayR p4 (specTable p4.M_rx p4.taux p4.M_sp)
            (specTable p4.M_ry p4.tauy p4.M_sp) (specTable p4.M_rz p4.tauz p4.M_sp)
            (deltaArr (linIdx p4.M_rx p4.M_ry 2 2 2)) zeroArr
            (singleKnot (cellAngle p4.M_rx 2) (cellAngle p4.M_ry 2) (cellAngle p4.M_rz 2))
            1 zeroScratch 0) ∧
    (∀ kx2 ky2 kz2 : ℝ, 0 ≤ kx2 → kx2 < 2 * Real.pi → 0 ≤ ky2 → ky2 < 2 * Real.pi →
      0 ≤ kz2 → kz2 < 2 * Real.pi →
      ((∀ l : ℤ, 1 - (p4.M_sp : ℤ) ≤ l → l ≤ (p4.M_sp : ℤ) →
          wrapIdx p4.M_rx (floorIdx p4.M_rx kx2) l ≠ 2) ∨
       (∀ l : ℤ, 1 - (p4.M_sp : ℤ) ≤ l → l ≤ (p4.M_sp : ℤ) →
          wrapIdx p4.M_ry (floorIdx p4.M_ry ky2) l ≠ 2) ∨
       (∀ l : ℤ, 1 - (p4.M_sp : ℤ) ≤ l → l ≤ (p4.M_sp : ℤ) →
          wrapIdx p4.M_rz (floorIdx p4.M_rz kz2) l ≠ 2)) →
      outArrayR p4 (specTable p4.M_rx p4.taux p4.M_sp) (specTable p4.M_ry p4.tauy p4.M_sp)
          (specTable p4.M_rz p4.tauz p4.M_sp) (deltaArr (linIdx p4.M_rx p4.M_ry 2 2 2))
          zeroArr (singleKnot kx2 ky2 kz2) 1 zeroScratch 0 = 0 ∧
        outArrayI p4 (specTable p4.M_rx p4.taux p4.M_sp) (specTable p4.M_ry p4.tauy p4.M_sp)
          (specTable p4.M_rz p4.tauz p4.M_sp) (deltaArr (linIdx p4.M_rx p4.M_ry 2 2 2))
          zeroArr (singleKnot kx2 ky2 kz2) 1 zeroScratch 0 = 0)) :=
  ⟨⟨by decide, by decide, one_pos, by decide, by decide, by decide,
    (cellAngle_range p4.M_rx (by decide) 2 (by decide) (by decide)).1,
    (cellAngle_range p4.M_rx (by decide) 2 (by decide) (by decide)).2,
    by decide, by decide,
    by rw [cellAngle_floorIdx p4.M_rx (by decide) 2]; decide⟩,
   C8_gaussian_decay p4 zeroScratch 2 2 2 (by decide) (by decide) (by decide) (by decide)
     (by decide) (by decide) one_pos one_pos one_pos (by decide) (by decide) (by decide)
     (by decide) (by decide) (by decide) (by decide) (by decide) (by decide)
     (cellAngle p4.M_rx 2) (cellAngle p4.M_ry 2) (cellAngle p4.M_rz 2)
     (cellAngle_range p4.M_rx (by decide) 2 (by decide) (by decide)).1
     (cellAngle_range p4.M_rx (by decide) 2 (by decide) (by decide)).2
     (cellAngle_range p4.M_ry (by decide) 2 (by decide) (by decide)).1
     (cellAngle_range p4.M_ry (by decide) 2 (by decide) (by decide)).2
     (cellAngle_range p4.M_rz (by decide) 2 (by decide) (by decide)).1
     (cellAngle_range p4.M_rz (by decide) 2 (by decide) (by decide)).2
     0 0 0 (by decide) (by decide) (by decide) (by decide) (by decide) (by decide)
     (by rw [cellAngle_floorIdx p4.M_rx (by decide) 2]; decide)
     (by rw [cellAngle_floorIdx p4.M_ry (by decide) 2]; decide)
     (by rw [cellAngle_floorIdx p4.M_rz (by decide) 2]; decide)⟩

end
